import Mathlib

/-!
# HFMuonFwdTracks: forward-muon selection, deduplication and prompt classification

A shallow embedding of `src/MyTasks/HF/HFMuonFwdTracks.cxx` (the analysis task
`HFMuonFwdTracks`, its member `selectedTracksID`, and `process`), followed by
theorems about it.

Conventions of the embedding.

* A row of `aod::McParticles` is referred to by its row index (`Int`); the table is the
  collection of its column accessors.  `mothers_first` is the row that
  `mothers_first_as<aod::McParticles>()` yields and `has_mothers` is `has_mothers()`.
  The two are independent accessors here, because `process` calls the former on the muon
  without consulting the latter. `process` is the code with every accessor call
  returning. The one call that nothing guards, that of line 85, does not return on a
  row whose mother list is empty: `processOutcome` is the same code with that call
  aborting the program there, and it agrees with `process` whenever it returns.
* `int` values are integers; `abs` is the two's-complement `abs` of a 32-bit `int`
  (the magnitude, except at the minimum `int`, which it leaves unchanged) and
  `div(x, 100).quot` is division truncated toward zero.
* `float` values are dyadic rationals, the two infinities or NaN; comparison is the
  IEEE comparison, which is exact after promotion to `double`.
* `count(...)` is kept as the number of occurrences; its conversion to `int` changes
  nothing as long as `selectedTracksID` holds fewer than `2 ^ 31` copies of one value.
* The `while` loop takes a bound on its number of iterations and yields `none` when
  the bound is exceeded; a loop that never ends yields `none` for every bound.
* Output streams and histograms are the lists of what was written to them, in order.
-/

namespace HFMuonFwdTracks

/-! ## Machine values -/

/-- The minimum 32-bit `int`. -/
def INT_MIN : Int := -2147483648

/-- The function `abs` on a 32-bit `int`: the magnitude of `x`, except that the minimum `int`, whose
magnitude is not representable, is left unchanged by two's-complement negation. -/
def abs32 (x : Int) : Int :=
  if x = INT_MIN then INT_MIN else if x < 0 then -x else x

/-- Member `quot` of `div(x, y)`: the quotient truncated toward zero. -/
def divQuot (x y : Int) : Int := Int.tdiv x y

/-- A value of a `float` column: `finite m e` stands for `m * 2 ^ e`. -/
inductive FloatVal where
  | finite (mant : Int) (expo : Int)
  | posInf
  | negInf
  | nan
  deriving DecidableEq

namespace FloatVal

/-- The IEEE comparison `x <= y`; it is false as soon as one side is NaN. -/
def le : FloatVal → FloatVal → Bool
  | nan, _ => false
  | _, nan => false
  | negInf, _ => true
  | _, posInf => true
  | posInf, _ => false
  | _, negInf => false
  | finite m1 e1, finite m2 e2 =>
    decide (m1 * 2 ^ (e1 - min e1 e2).toNat ≤ m2 * 2 ^ (e2 - min e1 e2).toNat)

/-- The IEEE comparison `x >= y`. -/
def ge (x y : FloatVal) : Bool := le y x

/-- The literal `-4.0`. -/
def negFour : FloatVal := finite (-4) 0

/-- The literal `-2.5`. -/
def negTwoPointFive : FloatVal := finite (-5) (-1)

end FloatVal

/-! ## Input tables -/

/-- A row of `soa::Join<aod::FwdTracks, aod::McFwdTrackLabels>`: the columns that
`process` reads. `mcParticleId` is the index column behind `has_mcParticle()` and
`mcParticle()`. -/
structure FwdTrack where
  mcParticleId : Int
  eta : FloatVal
  pt : FloatVal
  p : FloatVal
  phi : FloatVal
  nClusters : Int
  pDca : FloatVal
  chi2 : FloatVal
  chi2MatchMCHMID : FloatVal
  chi2MatchMCHMFT : FloatVal
  deriving DecidableEq

/-- Accessor `has_mcParticle()`: the label index is not negative. -/
def FwdTrack.has_mcParticle (track : FwdTrack) : Bool := decide (0 ≤ track.mcParticleId)

/-- The table `aod::McParticles`, as the accessors of the row at a given index. -/
structure McParticles where
  globalIndex : Int → Int
  pdgCode : Int → Int
  getGenStatusCode : Int → Int
  has_mothers : Int → Bool
  mothers_first : Int → Int
  eta : Int → FloatVal
  pt : Int → FloatVal

/-- A stored row of `aod::McParticles`, with its list of mother indices. -/
structure McParticleRow where
  pdgCode : Int
  genStatusCode : Int
  mothersIds : List Int
  eta : FloatVal
  pt : FloatVal
  deriving DecidableEq

/-- The row that a read outside the stored rows is taken to give. -/
def McParticleRow.blank : McParticleRow :=
  { pdgCode := 0, genStatusCode := 0, mothersIds := [], eta := FloatVal.finite 0 0,
    pt := FloatVal.finite 0 0 }

/-- Row `i` of a stored table. -/
def rowAt (rows : List McParticleRow) (i : Int) : McParticleRow :=
  if i < 0 then McParticleRow.blank else rows.getD i.toNat McParticleRow.blank

/-- The accessors of a stored table: the global index of a row is its position,
`has_mothers()` says that the mother list is not empty and `mothers_first` is its first
entry. On a row whose list is empty there is no entry to read, and the call
`mothers_first_as` does not return (see `McParticles.mothers_first_as`); the `-1` that
fills the field there stands for no read. -/
def McParticles.ofRows (rows : List McParticleRow) : McParticles :=
  { globalIndex := fun i => i
    pdgCode := fun i => (rowAt rows i).pdgCode
    getGenStatusCode := fun i => (rowAt rows i).genStatusCode
    has_mothers := fun i => !(rowAt rows i).mothersIds.isEmpty
    mothers_first := fun i => (rowAt rows i).mothersIds.headD (-1)
    eta := fun i => (rowAt rows i).eta
    pt := fun i => (rowAt rows i).pt }

/-! ## Task state and outputs -/

/-- One data line of `muontracks.txt`, in the order of the header
`ID,eta,pt,p,phi,motherPDG,nClusters,pDca,chi2,chi2MatchMCHMID,chi2MatchMCHMFT,isPrompt`. -/
structure MuonRecord where
  ID : Int
  eta : FloatVal
  pt : FloatVal
  p : FloatVal
  phi : FloatVal
  motherPDG : Int
  nClusters : Int
  pDca : FloatVal
  chi2 : FloatVal
  chi2MatchMCHMID : FloatVal
  chi2MatchMCHMFT : FloatVal
  isPrompt : Int
  deriving DecidableEq

/-- The state that `process` reads and updates: the member `selectedTracksID`, the data
lines written to `muonTracksOut`, the fills of the three histograms (the event counter
is always filled at `0.5`, so only the number of its fills is kept), and the decay
chains printed to `std::cout` (the codes printed after `<-`, and the verdict). -/
structure TaskState where
  selectedTracksID : List Int
  muonTracksOut : List MuonRecord
  eventCounterReco : Nat
  muPtHistReco : List FloatVal
  muPtHistRecoD : List FloatVal
  cout : List (List Int × Int)
  deriving DecidableEq

/-- The state after `init`: nothing selected, only the header written, empty
histograms. -/
def TaskState.init : TaskState :=
  { selectedTracksID := [], muonTracksOut := [], eventCounterReco := 0,
    muPtHistReco := [], muPtHistRecoD := [], cout := [] }

/-! ## The decay-chain traversal (source lines 95-108) -/

/-- The local variables of the traversal, and what the loop has printed. -/
structure WalkState where
  mcPart : Int
  prevMcPart : Int
  mcPartPDG : Int
  printed : List Int
  deriving DecidableEq

/-- The test on the generator status code in the condition of the `while` loop:
`abs(mcPart.getGenStatusCode()) > 80 || mcPart.getGenStatusCode() == 0`. -/
def statusContinues (mcParticles : McParticles) (mcPart : Int) : Bool :=
  decide (abs32 (mcParticles.getGenStatusCode mcPart) > 80) ||
    decide (mcParticles.getGenStatusCode mcPart = 0)

/-- The condition of the `while` loop:
`mcPart.has_mothers() && (abs(mcPart.getGenStatusCode()) > 80 || mcPart.getGenStatusCode() == 0)`. -/
def loopCond (mcParticles : McParticles) (mcPart : Int) : Bool :=
  mcParticles.has_mothers mcPart && statusContinues mcParticles mcPart

/-- One run of the loop body. -/
def loopBody (mcParticles : McParticles) (s : WalkState) : WalkState :=
  { mcPart := mcParticles.mothers_first s.mcPart
    prevMcPart := s.mcPart
    mcPartPDG := abs32 (mcParticles.pdgCode (mcParticles.mothers_first s.mcPart))
    printed := s.printed ++ [s.mcPartPDG] }

/-- The `while` loop, allowed at most `fuel` runs of its body; `none` when the condition
still holds after that many. -/
def walkLoop (mcParticles : McParticles) : Nat → WalkState → Option WalkState
  | 0, s => if loopCond mcParticles s.mcPart then none else some s
  | fuel + 1, s =>
    if loopCond mcParticles s.mcPart then walkLoop mcParticles fuel (loopBody mcParticles s)
    else some s

/-- The variables as lines 95-97 set them before the loop. -/
def walkStart (mcParticles : McParticles) (muMother : Int) : WalkState :=
  { mcPart := muMother, prevMcPart := muMother,
    mcPartPDG := abs32 (mcParticles.pdgCode muMother), printed := [] }

/-- The value of `isPrompt` after line 111, from the code of `prevMcPart` and
`muMotherPDG`. -/
def isPromptOf (prevPdgCode muMotherPDG : Int) : Int :=
  if divQuot (abs32 prevPdgCode) 100 ≠ divQuot muMotherPDG 100 then 0 else 1

/-! ## `process` (source lines 48-124) -/

/-- The call `histos.fill(HIST("muPtHistReco"), x)`. -/
def TaskState.fillMuPtHistReco (st : TaskState) (x : FloatVal) : TaskState :=
  { st with muPtHistReco := st.muPtHistReco ++ [x] }

/-- The call `histos.fill(HIST("muPtHistRecoD"), x)`. -/
def TaskState.fillMuPtHistRecoD (st : TaskState) (x : FloatVal) : TaskState :=
  { st with muPtHistRecoD := st.muPtHistRecoD ++ [x] }

/-- Lines 100-119 after the traversal: the chain and verdict go to `std::cout`, the line
goes to `muonTracksOut`, and `muID` is put at the end of `selectedTracksID`. -/
def TaskState.writeMuon (st : TaskState) (chain : List Int) (line : MuonRecord)
    (muID : Int) : TaskState :=
  { st with
    cout := st.cout ++ [(chain, line.isPrompt)]
    muonTracksOut := st.muonTracksOut ++ [line]
    selectedTracksID := st.selectedTracksID ++ [muID] }

/-- The body of the loop over tracks, for one track. -/
def processTrack (fuel : Nat) (mcParticles : McParticles) (st : TaskState)
    (track : FwdTrack) : Option TaskState :=
  if track.has_mcParticle then
    let mcParticle := track.mcParticleId
    if abs32 (mcParticles.pdgCode mcParticle) = 13 then
      let muID := mcParticles.globalIndex mcParticle
      let muEta := mcParticles.eta mcParticle
      let st1 : TaskState :=
        if FloatVal.ge muEta FloatVal.negFour && FloatVal.le muEta FloatVal.negTwoPointFive then
          st.fillMuPtHistReco (mcParticles.pt mcParticle)
        else st
      let occuranceCount := st1.selectedTracksID.count muID
      if occuranceCount < 1 then
        let muMother := mcParticles.mothers_first mcParticle
        let muMotherPDG := abs32 (mcParticles.pdgCode muMother)
        let st2 : TaskState :=
          if abs32 muMotherPDG ≥ 411 ∧ abs32 muMotherPDG ≤ 435 then
            st1.fillMuPtHistRecoD (mcParticles.pt mcParticle)
          else st1
        match walkLoop mcParticles fuel (walkStart mcParticles muMother) with
        | none => none
        | some w =>
          let isPrompt := isPromptOf (mcParticles.pdgCode w.prevMcPart) muMotherPDG
          some (st2.writeMuon w.printed
            { ID := muID, eta := track.eta, pt := track.pt, p := track.p, phi := track.phi,
              motherPDG := muMotherPDG, nClusters := track.nClusters, pDca := track.pDca,
              chi2 := track.chi2, chi2MatchMCHMID := track.chi2MatchMCHMID,
              chi2MatchMCHMFT := track.chi2MatchMCHMFT, isPrompt := isPrompt } muID)
      else some st1
    else some st
  else some st

/-- The loop over the tracks of one event. -/
def processTracks (fuel : Nat) (mcParticles : McParticles) :
    TaskState → List FwdTrack → Option TaskState
  | st, [] => some st
  | st, track :: rest =>
    match processTrack fuel mcParticles st track with
    | none => none
    | some st1 => processTracks fuel mcParticles st1 rest

/-- The member `process`: one fill of the event counter, then the loop over tracks. Its
argument `collision` is not read and is left out. -/
def process (fuel : Nat) (mcParticles : McParticles) (st : TaskState)
    (tracks : List FwdTrack) : Option TaskState :=
  processTracks fuel mcParticles { st with eventCounterReco := st.eventCounterReco + 1 } tracks

/-- A run: `process` called on each event in turn, an event being its particle table
and its tracks. -/
def run (fuel : Nat) : TaskState → List (McParticles × List FwdTrack) → Option TaskState
  | st, [] => some st
  | st, ev :: rest =>
    match process fuel ev.1 st ev.2 with
    | none => none
    | some st1 => run fuel st1 rest

/-! ## `process` with the call of line 85 aborting on an empty mother list -/

/-- How a call ends: it returns with a state, it aborts the program, or it is still
running when the bound on the runs of the traversal is reached. -/
inductive CallOutcome where
  | returned (st : TaskState)
  | aborted
  | unfinished
  deriving DecidableEq

/-- The call `mothers_first_as<aod::McParticles>()` on row `i`: it reads the first entry of
the mother list of the row. On an empty list there is nothing to read and the call does
not return: the program is aborted. -/
def McParticles.mothers_first_as (mcParticles : McParticles) (i : Int) : Option Int :=
  if mcParticles.has_mothers i then some (mcParticles.mothers_first i) else none

/-- The body of the loop over tracks, for one track, with the call of line 85 as
`McParticles.mothers_first_as`. Inside the traversal the same call comes after the test
of `has_mothers()` in the loop condition, so that it returns there. -/
def processTrackOutcome (fuel : Nat) (mcParticles : McParticles) (st : TaskState)
    (track : FwdTrack) : CallOutcome :=
  if track.has_mcParticle then
    let mcParticle := track.mcParticleId
    if abs32 (mcParticles.pdgCode mcParticle) = 13 then
      let muID := mcParticles.globalIndex mcParticle
      let muEta := mcParticles.eta mcParticle
      let st1 : TaskState :=
        if FloatVal.ge muEta FloatVal.negFour && FloatVal.le muEta FloatVal.negTwoPointFive then
          st.fillMuPtHistReco (mcParticles.pt mcParticle)
        else st
      let occuranceCount := st1.selectedTracksID.count muID
      if occuranceCount < 1 then
        match mcParticles.mothers_first_as mcParticle with
        | none => CallOutcome.aborted
        | some muMother =>
          let muMotherPDG := abs32 (mcParticles.pdgCode muMother)
          let st2 : TaskState :=
            if abs32 muMotherPDG ≥ 411 ∧ abs32 muMotherPDG ≤ 435 then
              st1.fillMuPtHistRecoD (mcParticles.pt mcParticle)
            else st1
          match walkLoop mcParticles fuel (walkStart mcParticles muMother) with
          | none => CallOutcome.unfinished
          | some w =>
            let isPrompt := isPromptOf (mcParticles.pdgCode w.prevMcPart) muMotherPDG
            CallOutcome.returned (st2.writeMuon w.printed
              { ID := muID, eta := track.eta, pt := track.pt, p := track.p, phi := track.phi,
                motherPDG := muMotherPDG, nClusters := track.nClusters, pDca := track.pDca,
                chi2 := track.chi2, chi2MatchMCHMID := track.chi2MatchMCHMID,
                chi2MatchMCHMFT := track.chi2MatchMCHMFT, isPrompt := isPrompt } muID)
      else CallOutcome.returned st1
    else CallOutcome.returned st
  else CallOutcome.returned st

/-- The loop over the tracks of one event: it goes on to the next track only when the
pass for a track returns. -/
def processTracksOutcome (fuel : Nat) (mcParticles : McParticles) :
    TaskState → List FwdTrack → CallOutcome
  | st, [] => CallOutcome.returned st
  | st, track :: rest =>
    match processTrackOutcome fuel mcParticles st track with
    | CallOutcome.returned st1 => processTracksOutcome fuel mcParticles st1 rest
    | CallOutcome.aborted => CallOutcome.aborted
    | CallOutcome.unfinished => CallOutcome.unfinished

/-- The member `process`, with the outcome of the call. -/
def processOutcome (fuel : Nat) (mcParticles : McParticles) (st : TaskState)
    (tracks : List FwdTrack) : CallOutcome :=
  processTracksOutcome fuel mcParticles
    { st with eventCounterReco := st.eventCounterReco + 1 } tracks

/-! ## Notions used to state the properties -/

/-- The particle reached from `start` after `k` first-mother links. -/
def ancestor (mcParticles : McParticles) (start : Int) (k : Nat) : Int :=
  (mcParticles.mothers_first)^[k] start

/-- The codes that the loop prints while it moves over the first `k` particles of the
chain from `start`. -/
def chainCodes (mcParticles : McParticles) (start : Int) (k : Nat) : List Int :=
  (List.range k).map (fun j => abs32 (mcParticles.pdgCode (ancestor mcParticles start j)))

/-- The tests of lines 55 and 61: the track has a label and the labelled particle is a
muon. -/
def isTrueMuon (mcParticles : McParticles) (track : FwdTrack) : Bool :=
  track.has_mcParticle && decide (abs32 (mcParticles.pdgCode track.mcParticleId) = 13)

/-- The value of `muID` for a track (line 62). -/
def muIDOf (mcParticles : McParticles) (track : FwdTrack) : Int :=
  mcParticles.globalIndex track.mcParticleId

/-- The test of line 66 on the pseudorapidity of the labelled particle. -/
def inForwardWindow (mcParticles : McParticles) (track : FwdTrack) : Bool :=
  FloatVal.ge (mcParticles.eta track.mcParticleId) FloatVal.negFour &&
    FloatVal.le (mcParticles.eta track.mcParticleId) FloatVal.negTwoPointFive

/-- The test of line 90 on the code of the first mother. -/
def motherInDRange (mcParticles : McParticles) (track : FwdTrack) : Bool :=
  decide (abs32 (abs32 (mcParticles.pdgCode (mcParticles.mothers_first track.mcParticleId))) ≥ 411 ∧
    abs32 (abs32 (mcParticles.pdgCode (mcParticles.mothers_first track.mcParticleId))) ≤ 435)

/-- The line that line 116 writes for a track, given the traversal's final variables. -/
def recordOf (mcParticles : McParticles) (track : FwdTrack) (w : WalkState) : MuonRecord :=
  { ID := muIDOf mcParticles track
    eta := track.eta, pt := track.pt, p := track.p, phi := track.phi
    motherPDG := abs32 (mcParticles.pdgCode (mcParticles.mothers_first track.mcParticleId))
    nClusters := track.nClusters, pDca := track.pDca, chi2 := track.chi2
    chi2MatchMCHMID := track.chi2MatchMCHMID, chi2MatchMCHMFT := track.chi2MatchMCHMFT
    isPrompt := isPromptOf (mcParticles.pdgCode w.prevMcPart)
      (abs32 (mcParticles.pdgCode (mcParticles.mothers_first track.mcParticleId))) }

/-- The traversal that `process` runs for a track: from the first mother of the labelled
particle. -/
def walkOf (fuel : Nat) (mcParticles : McParticles) (track : FwdTrack) : Option WalkState :=
  walkLoop mcParticles fuel (walkStart mcParticles (mcParticles.mothers_first track.mcParticleId))

/-- The tracks of an event for which `process` reaches line 73, in order: the true muons
whose `muID` is neither in `seen` (the content of `selectedTracksID` when the event
starts) nor the `muID` of an earlier such track. -/
def acceptedTracks (mcParticles : McParticles) : List Int → List FwdTrack → List FwdTrack
  | _, [] => []
  | seen, track :: rest =>
    if isTrueMuon mcParticles track = true ∧ muIDOf mcParticles track ∉ seen then
      track :: acceptedTracks mcParticles (seen ++ [muIDOf mcParticles track]) rest
    else acceptedTracks mcParticles seen rest

/-- The line written for a track, if its traversal ends within the bound. -/
def lineOf (fuel : Nat) (mcParticles : McParticles) (track : FwdTrack) : Option MuonRecord :=
  (walkOf fuel mcParticles track).map (recordOf mcParticles track)

/-! ## The selection as the specification words it -/

/-- The track has a truth association and its truth particle has `|pdgCode| = 13`. -/
def isSpecMuon (mcParticles : McParticles) (track : FwdTrack) : Bool :=
  track.has_mcParticle && decide ((mcParticles.pdgCode track.mcParticleId).natAbs = 13)

/-- The first track of the event, in iteration order, that has a truth association to a
muon of identity `I`. -/
def firstTrackOf (mcParticles : McParticles) (tracks : List FwdTrack) (I : Int) :
    Option FwdTrack :=
  tracks.find? (fun t => isSpecMuon mcParticles t && decide (muIDOf mcParticles t = I))

/-- The maximum 32-bit `int`. -/
def INT_MAX : Int := 2147483647

/-- The family code as line 111 computes it: `div(abs(code), 100).quot`. -/
def family (code : Int) : Int := divQuot (abs32 code) 100

/-- The value of `isPrompt` that lines 86 and 110-111 give for a first mother of code `m`
and a `prevMcPart` of code `a`. -/
def classify (m a : Int) : Int := isPromptOf a (abs32 m)

/-- The first-mother relation of a table: `m` is the first mother of `i`. -/
def isMotherOf (mcParticles : McParticles) (m i : Int) : Prop :=
  mcParticles.has_mothers i = true ∧ mcParticles.mothers_first i = m

/-- A `float` value that is an integer. -/
def FloatVal.ofInt (n : Int) : FloatVal := FloatVal.finite n 0

/-- A track labelled with row `i`, with reconstructed `eta` and `pt` as given. -/
def trackOf (i : Int) (eta pt : FloatVal) : FwdTrack :=
  { mcParticleId := i, eta := eta, pt := pt, p := FloatVal.ofInt 9, phi := FloatVal.ofInt 1,
    nClusters := 7, pDca := FloatVal.ofInt 2, chi2 := FloatVal.ofInt 3,
    chi2MatchMCHMID := FloatVal.ofInt 4, chi2MatchMCHMFT := FloatVal.ofInt 5 }

/-- A particle row with the kinematics left at zero. -/
def rowOf (pdgCode genStatusCode : Int) (mothersIds : List Int) : McParticleRow :=
  { pdgCode := pdgCode, genStatusCode := genStatusCode, mothersIds := mothersIds,
    eta := FloatVal.ofInt 0, pt := FloatVal.ofInt 0 }

/-- A muon row in the forward window (`eta = -3`, `pt = 2.5`). -/
def muonRow (pdgCode : Int) (mothersIds : List Int) : McParticleRow :=
  { pdgCode := pdgCode, genStatusCode := 1, mothersIds := mothersIds,
    eta := FloatVal.ofInt (-3), pt := FloatVal.finite 5 (-1) }

/-- Row 0 is a muon from a D+ (row 1, status 91); the D+ comes from a B0 (row 2,
status 2) that itself has a mother (row 3). -/
def tableViaB0 : McParticles :=
  McParticles.ofRows [muonRow 13 [1], rowOf 411 91 [2], rowOf 511 2 [3], rowOf 5 23 []]

/-- Row 0 is a muon from a D0 (row 1, status 91); the D0 comes from a Lambda_b (row 2,
status 91) without mother. Both ancestors pass the status test. -/
def tableAllTechnical : McParticles :=
  McParticles.ofRows [muonRow 13 [1], rowOf 421 91 [2], rowOf 5122 91 []]

/-- Row 0 is a muon from a D0 (row 1, status 91), which comes from a Lambda_b (row 2,
status 91), which comes from a b quark (row 3, status 23). -/
def tableViaLambdaB : McParticles :=
  McParticles.ofRows [muonRow 13 [1], rowOf 421 91 [2], rowOf 5122 91 [3], rowOf 5 23 []]

/-- Row 0 is a muon from a D+ (row 1) with final-state status 1 and a mother (row 2). -/
def tableDirect : McParticles :=
  McParticles.ofRows [muonRow (-13) [1], rowOf 411 1 [2], rowOf 5122 91 []]

/-- Rows 0 to 76 are blank, row 77 is a muon in the forward window and row 78 its mother,
a D+ with status 1 and no mother. -/
def tableSeventySeven : McParticles :=
  McParticles.ofRows (List.replicate 77 McParticleRow.blank ++ [muonRow 13 [78], rowOf 411 1 []])

/-- Row 0 is a muon whose mother list is empty; row 1 is a muon from a D+ (row 2) with
status 1 and no mother. -/
def tableMotherless : McParticles :=
  McParticles.ofRows [muonRow 13 [], muonRow 13 [2], rowOf 411 1 []]

/-- Two tracks on `tableMotherless`: one labelled with row 0, then one labelled with
row 1. -/
def tracksMotherless : List FwdTrack :=
  [trackOf 0 (FloatVal.ofInt (-3)) (FloatVal.ofInt 2),
   trackOf 1 (FloatVal.ofInt (-3)) (FloatVal.ofInt 4)]

/-- The line with the reconstructed values of `track` and the three other fields as
given. -/
def lineWith (ID : Int) (track : FwdTrack) (motherPDG isPrompt : Int) : MuonRecord :=
  { ID := ID, eta := track.eta, pt := track.pt, p := track.p, phi := track.phi,
    motherPDG := motherPDG, nClusters := track.nClusters, pDca := track.pDca,
    chi2 := track.chi2, chi2MatchMCHMID := track.chi2MatchMCHMID,
    chi2MatchMCHMFT := track.chi2MatchMCHMFT, isPrompt := isPrompt }

/-- Three events: the first has two tracks labelled with the muon of row 0, a track
without label and a track labelled with a D0; the second has one more track labelled
with row 0; the third, on another table, has a track labelled with row 77. -/
def eventsWithDuplicates : List (McParticles × List FwdTrack) :=
  [(tableViaLambdaB,
      [trackOf 0 (FloatVal.ofInt (-3)) (FloatVal.ofInt 2),
       trackOf (-1) (FloatVal.ofInt (-3)) (FloatVal.ofInt 3),
       trackOf 0 (FloatVal.ofInt (-3)) (FloatVal.ofInt 4),
       trackOf 1 (FloatVal.ofInt (-3)) (FloatVal.ofInt 5)]),
   (tableViaLambdaB, [trackOf 0 (FloatVal.ofInt (-3)) (FloatVal.ofInt 6)]),
   (tableSeventySeven, [trackOf 77 (FloatVal.ofInt (-3)) (FloatVal.ofInt 2)])]

/-- The state after the run over `eventsWithDuplicates`. -/
def finalWithDuplicates : TaskState :=
  { selectedTracksID := [0, 77]
    muonTracksOut :=
      [lineWith 0 (trackOf 0 (FloatVal.ofInt (-3)) (FloatVal.ofInt 2)) 421 0,
       lineWith 77 (trackOf 77 (FloatVal.ofInt (-3)) (FloatVal.ofInt 2)) 411 1]
    eventCounterReco := 3
    muPtHistReco := [FloatVal.finite 5 (-1), FloatVal.finite 5 (-1), FloatVal.finite 5 (-1),
      FloatVal.finite 5 (-1)]
    muPtHistRecoD := [FloatVal.finite 5 (-1), FloatVal.finite 5 (-1)]
    cout := [([421, 5122], 0), ([], 1)] }

/-- The state after `process` on `tableViaB0` and one track labelled with row 0, from the
initial state. -/
def finalViaB0 : TaskState :=
  { selectedTracksID := [0]
    muonTracksOut := [lineWith 0 (trackOf 0 (FloatVal.ofInt (-3)) (FloatVal.ofInt 2)) 411 1]
    eventCounterReco := 1
    muPtHistReco := [FloatVal.finite 5 (-1)]
    muPtHistRecoD := [FloatVal.finite 5 (-1)]
    cout := [([411], 1)] }

/-- The state after `process` on `tableMotherless` and the second track of
`tracksMotherless` alone, from the initial state. -/
def finalSecondTrack : TaskState :=
  { selectedTracksID := [1]
    muonTracksOut := [lineWith 1 (trackOf 1 (FloatVal.ofInt (-3)) (FloatVal.ofInt 4)) 411 1]
    eventCounterReco := 1
    muPtHistReco := [FloatVal.finite 5 (-1)]
    muPtHistRecoD := [FloatVal.finite 5 (-1)]
    cout := [([], 1)] }

/-- Row 0 is a muon from a D+ (row 1, status 91) whose first mother is a D*+ (row 2,
status 91) whose first mother is row 1 again; row 3 is a muon from a D+ (row 4) with
status 1 and no mother. -/
def tableCycle : McParticles :=
  McParticles.ofRows
    [muonRow 13 [1], rowOf 411 91 [2], rowOf 413 91 [1], muonRow 13 [4], rowOf 411 1 []]

/-- Two tracks on `tableCycle`: one labelled with row 0, then one labelled with row 3. -/
def tracksCycle : List FwdTrack :=
  [trackOf 0 (FloatVal.ofInt (-3)) (FloatVal.ofInt 2),
   trackOf 3 (FloatVal.ofInt (-3)) (FloatVal.ofInt 4)]

/-! # Theorems -/

/-! ## Machine values: lemmas -/

theorem abs32_of_ne_min (x : Int) (h : x ≠ INT_MIN) : abs32 x = (x.natAbs : Int) := by
  unfold abs32
  rw [if_neg h]
  split_ifs with h1
  · omega
  · omega

theorem abs32_eq_thirteen (x : Int) : abs32 x = 13 ↔ x.natAbs = 13 := by
  unfold abs32 INT_MIN
  split_ifs with h0 h1
  · subst h0; decide
  · omega
  · omega

theorem divQuot_natAbs (x : Int) (h : x ≠ INT_MIN) :
    divQuot (abs32 x) 100 = ((x.natAbs / 100 : Nat) : Int) := by
  rw [abs32_of_ne_min x h]
  unfold divQuot
  rw [Int.tdiv_eq_ediv (Int.natCast_nonneg _) (by decide)]
  norm_cast

theorem walkLoop_zero_iter (mcParticles : McParticles) (fuel : Nat) (s : WalkState)
    (h : loopCond mcParticles s.mcPart = false) : walkLoop mcParticles fuel s = some s := by
  cases fuel <;> simp [walkLoop, h]

theorem walkLoop_step (mcParticles : McParticles) (fuel : Nat) (s : WalkState)
    (h : loopCond mcParticles s.mcPart = true) :
    walkLoop mcParticles (fuel + 1) s = walkLoop mcParticles fuel (loopBody mcParticles s) := by
  simp [walkLoop, h]

theorem ancestor_zero (mcParticles : McParticles) (start : Int) :
    ancestor mcParticles start 0 = start := rfl

theorem ancestor_shift (mcParticles : McParticles) (start : Int) (j : Nat) :
    ancestor mcParticles (mcParticles.mothers_first start) j
      = ancestor mcParticles start (j + 1) := by
  simp [ancestor, Function.iterate_succ_apply]

theorem chainCodes_succ (mcParticles : McParticles) (start : Int) (k : Nat) :
    chainCodes mcParticles start (k + 1) = abs32 (mcParticles.pdgCode start) ::
      chainCodes mcParticles (mcParticles.mothers_first start) k := by
  simp [chainCodes, List.range_succ_eq_map, List.map_map, Function.comp_def, ancestor_shift,
    ancestor_zero]

/-- The traversal on a chain whose first `k` particles satisfy the loop condition and
whose next one does not: it runs the body exactly `k` times, and ends in the state
given. -/
theorem walkLoop_chain (mcParticles : McParticles) (k : Nat) :
    ∀ (s : WalkState) (fuel : Nat),
      s.mcPartPDG = abs32 (mcParticles.pdgCode s.mcPart) →
      (∀ j, j < k → loopCond mcParticles (ancestor mcParticles s.mcPart j) = true) →
      loopCond mcParticles (ancestor mcParticles s.mcPart k) = false →
      k ≤ fuel →
      walkLoop mcParticles fuel s = some
        { mcPart := ancestor mcParticles s.mcPart k
          prevMcPart := if k = 0 then s.prevMcPart else ancestor mcParticles s.mcPart (k - 1)
          mcPartPDG := abs32 (mcParticles.pdgCode (ancestor mcParticles s.mcPart k))
          printed := s.printed ++ chainCodes mcParticles s.mcPart k } := by
  induction k with
  | zero =>
    intro s fuel hpdg _ hstop _
    rw [walkLoop_zero_iter mcParticles fuel s (by simpa [ancestor] using hstop)]
    cases s
    simp_all [ancestor, chainCodes]
  | succ k ih =>
    intro s fuel hpdg hgo hstop hfuel
    obtain ⟨fuel, rfl⟩ : ∃ f, fuel = f + 1 := ⟨fuel - 1, by omega⟩
    have h0 : loopCond mcParticles s.mcPart = true := by
      simpa [ancestor] using hgo 0 (Nat.succ_pos k)
    have hshift : ∀ j, ancestor mcParticles (loopBody mcParticles s).mcPart j
        = ancestor mcParticles s.mcPart (j + 1) := fun j => ancestor_shift mcParticles s.mcPart j
    rw [walkLoop_step mcParticles fuel s h0,
      ih (loopBody mcParticles s) fuel rfl
        (fun j hj => by rw [hshift]; exact hgo (j + 1) (by omega))
        (by rw [hshift]; exact hstop) (by omega)]
    simp only [hshift, chainCodes_succ, Option.some.injEq, WalkState.mk.injEq, true_and]
    refine ⟨?_, ?_⟩
    · by_cases hk : k = 0
      · subst hk; simp [loopBody, ancestor]
      · obtain ⟨k, rfl⟩ : ∃ m, k = m + 1 := ⟨k - 1, by omega⟩
        simp
    · simp [loopBody, hpdg]

theorem walkLoop_short (mcParticles : McParticles) (k : Nat) :
    ∀ (s : WalkState) (fuel : Nat),
      (∀ j, j < k → loopCond mcParticles (ancestor mcParticles s.mcPart j) = true) →
      fuel < k → walkLoop mcParticles fuel s = none := by
  induction k with
  | zero => intro s fuel _ h; omega
  | succ k ih =>
    intro s fuel hgo hfuel
    have h0 : loopCond mcParticles s.mcPart = true := by
      simpa [ancestor] using hgo 0 (Nat.succ_pos k)
    cases fuel with
    | zero => simp [walkLoop, h0]
    | succ fuel =>
      rw [walkLoop_step mcParticles fuel s h0]
      apply ih
      · intro j hj
        have := hgo (j + 1) (by omega)
        simpa [ancestor, loopBody, Function.iterate_succ_apply] using this
      · omega


theorem processTrack_not_muon (fuel : Nat) (mcParticles : McParticles) (st : TaskState)
    (track : FwdTrack) (h : isTrueMuon mcParticles track = false) :
    processTrack fuel mcParticles st track = some st := by
  unfold processTrack
  unfold isTrueMuon at h
  by_cases h1 : track.has_mcParticle = true
  · simp only [h1, Bool.true_and, decide_eq_false_iff_not] at h
    simp [h1, h]
  · simp [h1]

/-- What one pass of the track loop does to the state, whenever it completes. -/
theorem processTrack_effect (fuel : Nat) (mcParticles : McParticles) (st st1 : TaskState)
    (track : FwdTrack) (h : processTrack fuel mcParticles st track = some st1) :
    st1.eventCounterReco = st.eventCounterReco ∧
    st1.muPtHistReco = st.muPtHistReco ++
      (if isTrueMuon mcParticles track && inForwardWindow mcParticles track
        then [mcParticles.pt track.mcParticleId] else []) ∧
    ((isTrueMuon mcParticles track = true ∧ muIDOf mcParticles track ∉ st.selectedTracksID ∧
        ∃ w, walkOf fuel mcParticles track = some w ∧
          st1.selectedTracksID = st.selectedTracksID ++ [muIDOf mcParticles track] ∧
          st1.muonTracksOut = st.muonTracksOut ++ [recordOf mcParticles track w] ∧
          st1.cout = st.cout ++ [(w.printed, (recordOf mcParticles track w).isPrompt)] ∧
          st1.muPtHistRecoD = st.muPtHistRecoD ++
            (if motherInDRange mcParticles track then [mcParticles.pt track.mcParticleId] else [])) ∨
     (¬ (isTrueMuon mcParticles track = true ∧ muIDOf mcParticles track ∉ st.selectedTracksID) ∧
        st1.selectedTracksID = st.selectedTracksID ∧ st1.muonTracksOut = st.muonTracksOut ∧
        st1.cout = st.cout ∧ st1.muPtHistRecoD = st.muPtHistRecoD)) := by
  by_cases hm : isTrueMuon mcParticles track = true
  · have hm0 := hm
    unfold isTrueMuon at hm
    simp only [Bool.and_eq_true, decide_eq_true_eq] at hm
    obtain ⟨h1, h2⟩ := hm
    unfold processTrack at h
    simp only [h1, h2, if_true] at h
    by_cases hseen : muIDOf mcParticles track ∈ st.selectedTracksID
    · have hc : ¬ (List.count (mcParticles.globalIndex track.mcParticleId) st.selectedTracksID < 1) := by
        have := List.count_pos_iff.mpr hseen
        unfold muIDOf at this
        omega
      by_cases hw : inForwardWindow mcParticles track = true
      · have hw0 := hw
        unfold inForwardWindow at hw
        simp only [hw, if_true, TaskState.fillMuPtHistReco, hc, if_false, Option.some.injEq] at h
        subst h
        simp [hm0, hw0, hseen]
      · have hw0 := hw
        unfold inForwardWindow at hw
        simp only [hw, Bool.false_eq_true, if_false, hc, Option.some.injEq] at h
        subst h
        simp [hm0, hw0, hseen]
    · have hc : List.count (mcParticles.globalIndex track.mcParticleId) st.selectedTracksID < 1 := by
        have := List.count_eq_zero.mpr hseen
        unfold muIDOf at this
        omega
      cases hwalk : walkOf fuel mcParticles track with
      | none =>
        unfold walkOf at hwalk
        by_cases hw : inForwardWindow mcParticles track = true
        · unfold inForwardWindow at hw
          simp [hw, TaskState.fillMuPtHistReco, hc, hwalk] at h
        · unfold inForwardWindow at hw
          simp [hw, hc, hwalk] at h
      | some w =>
        have hwalk0 := hwalk
        unfold walkOf at hwalk
        by_cases hw : inForwardWindow mcParticles track = true <;>
        by_cases hd : motherInDRange mcParticles track = true <;>
        · have hw0 := hw
          have hd0 := hd
          unfold inForwardWindow at hw
          unfold motherInDRange at hd
          simp only [decide_eq_true_eq] at hd
          simp only [hw, hd, Bool.false_eq_true, if_true, if_false, TaskState.fillMuPtHistReco,
            TaskState.fillMuPtHistRecoD, TaskState.writeMuon, hc, hwalk, Option.some.injEq] at h
          subst h
          have hseen1 : mcParticles.globalIndex track.mcParticleId ∉ st.selectedTracksID := hseen
          simp [hm0, hw0, hd0, hseen1, recordOf, muIDOf]
  · have hm1 : isTrueMuon mcParticles track = false := by simpa using hm
    rw [processTrack_not_muon fuel mcParticles st track hm1] at h
    cases h
    simp [hm1]

/-! ## The loop over tracks: lemmas -/

theorem isTrueMuon_eq_isSpecMuon (mcParticles : McParticles) (track : FwdTrack) :
    isTrueMuon mcParticles track = isSpecMuon mcParticles track := by
  unfold isTrueMuon isSpecMuon
  congr 1
  exact decide_eq_decide.mpr (abs32_eq_thirteen _)

/-- A true muon whose `muID` is already selected: the pass completes. -/
theorem processTrack_seen (fuel : Nat) (mcParticles : McParticles) (st : TaskState)
    (track : FwdTrack) (hm : isTrueMuon mcParticles track = true)
    (hseen : muIDOf mcParticles track ∈ st.selectedTracksID) :
    ∃ st1, processTrack fuel mcParticles st track = some st1 := by
  unfold isTrueMuon at hm
  simp only [Bool.and_eq_true, decide_eq_true_eq] at hm
  obtain ⟨h1, h2⟩ := hm
  have hc : ¬ (List.count (mcParticles.globalIndex track.mcParticleId) st.selectedTracksID < 1) := by
    have := List.count_pos_iff.mpr hseen
    unfold muIDOf at this
    omega
  unfold processTrack
  simp only [h1, h2, if_true]
  by_cases hw : inForwardWindow mcParticles track = true
  · unfold inForwardWindow at hw
    simp only [hw, if_true, TaskState.fillMuPtHistReco, hc, if_false]
    exact ⟨_, rfl⟩
  · unfold inForwardWindow at hw
    simp only [hw, Bool.false_eq_true, if_false, hc]
    exact ⟨_, rfl⟩

/-- A true muon whose `muID` is not selected yet: the pass completes exactly when the
traversal does. -/
theorem processTrack_new (fuel : Nat) (mcParticles : McParticles) (st : TaskState)
    (track : FwdTrack) (hm : isTrueMuon mcParticles track = true)
    (hnew : muIDOf mcParticles track ∉ st.selectedTracksID) :
    (processTrack fuel mcParticles st track).isSome = (walkOf fuel mcParticles track).isSome := by
  unfold isTrueMuon at hm
  simp only [Bool.and_eq_true, decide_eq_true_eq] at hm
  obtain ⟨h1, h2⟩ := hm
  have hc : List.count (mcParticles.globalIndex track.mcParticleId) st.selectedTracksID < 1 := by
    have := List.count_eq_zero.mpr hnew
    unfold muIDOf at this
    omega
  unfold processTrack walkOf
  simp only [h1, h2, if_true]
  by_cases hw : inForwardWindow mcParticles track = true
  · unfold inForwardWindow at hw
    simp only [hw, if_true, TaskState.fillMuPtHistReco, hc]
    cases walkLoop mcParticles fuel
      (walkStart mcParticles (mcParticles.mothers_first track.mcParticleId)) <;> rfl
  · unfold inForwardWindow at hw
    simp only [hw, Bool.false_eq_true, if_false, hc, if_true]
    cases walkLoop mcParticles fuel
      (walkStart mcParticles (mcParticles.mothers_first track.mcParticleId)) <;> rfl

theorem acceptedTracks_cons_pos (mcParticles : McParticles) (seen : List Int) (track : FwdTrack)
    (rest : List FwdTrack)
    (h : isTrueMuon mcParticles track = true ∧ muIDOf mcParticles track ∉ seen) :
    acceptedTracks mcParticles seen (track :: rest) =
      track :: acceptedTracks mcParticles (seen ++ [muIDOf mcParticles track]) rest := by
  simp only [acceptedTracks, if_pos h]

theorem acceptedTracks_cons_neg (mcParticles : McParticles) (seen : List Int) (track : FwdTrack)
    (rest : List FwdTrack)
    (h : ¬ (isTrueMuon mcParticles track = true ∧ muIDOf mcParticles track ∉ seen)) :
    acceptedTracks mcParticles seen (track :: rest) = acceptedTracks mcParticles seen rest := by
  simp only [acceptedTracks, if_neg h]

/-- What the loop over the tracks of an event does to the state, whenever it completes. -/
theorem processTracks_effect (fuel : Nat) (mcParticles : McParticles) :
    ∀ (tracks : List FwdTrack) (st st1 : TaskState),
      processTracks fuel mcParticles st tracks = some st1 →
      st1.eventCounterReco = st.eventCounterReco ∧
      st1.muPtHistReco = st.muPtHistReco ++
        (tracks.filter (fun t => isTrueMuon mcParticles t && inForwardWindow mcParticles t)).map
          (fun t => mcParticles.pt t.mcParticleId) ∧
      st1.selectedTracksID = st.selectedTracksID ++
        (acceptedTracks mcParticles st.selectedTracksID tracks).map (muIDOf mcParticles) ∧
      st1.muonTracksOut = st.muonTracksOut ++
        (acceptedTracks mcParticles st.selectedTracksID tracks).filterMap
          (lineOf fuel mcParticles) ∧
      (∀ t ∈ acceptedTracks mcParticles st.selectedTracksID tracks,
        (walkOf fuel mcParticles t).isSome = true) ∧
      st1.muPtHistRecoD = st.muPtHistRecoD ++
        ((acceptedTracks mcParticles st.selectedTracksID tracks).filter
          (motherInDRange mcParticles)).map (fun t => mcParticles.pt t.mcParticleId) := by
  intro tracks
  induction tracks with
  | nil =>
    intro st st1 h
    simp only [processTracks, Option.some.injEq] at h
    subst h
    simp [acceptedTracks]
  | cons track rest ih =>
    intro st st1 h
    simp only [processTracks] at h
    cases h0 : processTrack fuel mcParticles st track with
    | none => rw [h0] at h; cases h
    | some st0 =>
      rw [h0] at h
      simp only at h
      obtain ⟨e1, e2, e3, e4, e5, e6⟩ := ih st0 st1 h
      obtain ⟨f1, f2, f3⟩ := processTrack_effect fuel mcParticles st st0 track h0
      rcases f3 with ⟨hm, hnew, w, hw, g1, g2, _, g4⟩ | ⟨hrej, g1, g2, _, g4⟩
      · rw [acceptedTracks_cons_pos mcParticles _ track rest ⟨hm, hnew⟩]
        rw [g1] at e3 e4 e5 e6
        refine ⟨by rw [e1, f1], ?_, ?_, ?_, ?_, ?_⟩
        · rw [e2, f2, List.filter_cons]
          by_cases hq : (isTrueMuon mcParticles track && inForwardWindow mcParticles track) = true
          · simp [hq]
          · simp [hq]
        · rw [e3]; simp
        · rw [e4, g2]; simp [lineOf, hw]
        · intro t ht
          rcases List.mem_cons.mp ht with rfl | ht
          · simp [hw]
          · exact e5 t ht
        · rw [e6, g4, List.filter_cons]
          by_cases hd : motherInDRange mcParticles track = true
          · simp [hd]
          · simp [hd]
      · rw [acceptedTracks_cons_neg mcParticles _ track rest hrej]
        rw [g1] at e3 e4 e5 e6
        refine ⟨by rw [e1, f1], ?_, by rw [e3], by rw [e4, g2], e5, by rw [e6, g4]⟩
        rw [e2, f2, List.filter_cons]
        by_cases hq : (isTrueMuon mcParticles track && inForwardWindow mcParticles track) = true
        · simp [hq]
        · simp [hq]

/-- The loop over the tracks completes as soon as the traversal of every accepted track
does. -/
theorem processTracks_isSome (fuel : Nat) (mcParticles : McParticles) :
    ∀ (tracks : List FwdTrack) (st : TaskState),
      (∀ t ∈ acceptedTracks mcParticles st.selectedTracksID tracks,
        (walkOf fuel mcParticles t).isSome = true) →
      ∃ st1, processTracks fuel mcParticles st tracks = some st1 := by
  intro tracks
  induction tracks with
  | nil => intro st _; exact ⟨st, rfl⟩
  | cons track rest ih =>
    intro st hall
    by_cases hacc : isTrueMuon mcParticles track = true ∧
        muIDOf mcParticles track ∉ st.selectedTracksID
    · rw [acceptedTracks_cons_pos mcParticles _ track rest hacc] at hall
      have hsome : (processTrack fuel mcParticles st track).isSome = true := by
        rw [processTrack_new fuel mcParticles st track hacc.1 hacc.2]
        exact hall track (List.mem_cons_self _ _)
      obtain ⟨st0, h0⟩ := Option.isSome_iff_exists.mp hsome
      obtain ⟨_, _, f3⟩ := processTrack_effect fuel mcParticles st st0 track h0
      rcases f3 with ⟨_, _, w, _, g1, _⟩ | ⟨hrej, _⟩
      · obtain ⟨st1, h1⟩ := ih st0 (by
          rw [g1]; exact fun t ht => hall t (List.mem_cons_of_mem _ ht))
        exact ⟨st1, by simp only [processTracks, h0]; exact h1⟩
      · exact absurd hacc hrej
    · rw [acceptedTracks_cons_neg mcParticles _ track rest hacc] at hall
      have h0 : ∃ st0, processTrack fuel mcParticles st track = some st0 := by
        by_cases hm : isTrueMuon mcParticles track = true
        · have hseen : muIDOf mcParticles track ∈ st.selectedTracksID := by
            by_contra hc; exact hacc ⟨hm, hc⟩
          exact processTrack_seen fuel mcParticles st track hm hseen
        · exact ⟨st, processTrack_not_muon fuel mcParticles st track (by simpa using hm)⟩
      obtain ⟨st0, h0⟩ := h0
      obtain ⟨_, _, f3⟩ := processTrack_effect fuel mcParticles st st0 track h0
      rcases f3 with ⟨hm, hnew, _⟩ | ⟨_, g1, _⟩
      · exact absurd ⟨hm, hnew⟩ hacc
      · obtain ⟨st1, h1⟩ := ih st0 (by rw [g1]; exact hall)
        exact ⟨st1, by simp only [processTracks, h0]; exact h1⟩

theorem recordOf_ID (mcParticles : McParticles) (track : FwdTrack) (w : WalkState) :
    (recordOf mcParticles track w).ID = muIDOf mcParticles track := rfl

/-- The lines of the accepted tracks carry their `muID`, in order. -/
theorem lines_ID (fuel : Nat) (mcParticles : McParticles) (l : List FwdTrack)
    (h : ∀ t ∈ l, (walkOf fuel mcParticles t).isSome = true) :
    (l.filterMap (lineOf fuel mcParticles)).map MuonRecord.ID = l.map (muIDOf mcParticles) := by
  induction l with
  | nil => rfl
  | cons t rest ih =>
    obtain ⟨w, hw⟩ := Option.isSome_iff_exists.mp (h t (List.mem_cons_self _ _))
    have := ih (fun u hu => h u (List.mem_cons_of_mem _ hu))
    simp [List.filterMap_cons, lineOf, hw, recordOf_ID, this]

/-- The identities of the accepted tracks are new and pairwise distinct. -/
theorem acceptedTracks_nodup (mcParticles : McParticles) :
    ∀ (tracks : List FwdTrack) (seen : List Int), seen.Nodup →
      (seen ++ (acceptedTracks mcParticles seen tracks).map (muIDOf mcParticles)).Nodup := by
  intro tracks
  induction tracks with
  | nil => intro seen h; simpa [acceptedTracks] using h
  | cons track rest ih =>
    intro seen h
    by_cases hacc : isTrueMuon mcParticles track = true ∧ muIDOf mcParticles track ∉ seen
    · rw [acceptedTracks_cons_pos mcParticles _ track rest hacc]
      have h1 : (seen ++ [muIDOf mcParticles track]).Nodup := by
        rw [List.nodup_append]
        refine ⟨h, List.nodup_singleton _, ?_⟩
        intro x hx hx1
        rw [List.mem_singleton] at hx1
        subst hx1
        exact hacc.2 hx
      have := ih (seen ++ [muIDOf mcParticles track]) h1
      simpa using this
    · rw [acceptedTracks_cons_neg mcParticles _ track rest hacc]
      exact ih seen h

/-- An accepted track is the first track of the event with a truth association to a muon
of its identity, and that identity was not selected before the event. -/
theorem acceptedTracks_first (mcParticles : McParticles) :
    ∀ (tracks : List FwdTrack) (S : List Int) (t : FwdTrack),
      t ∈ acceptedTracks mcParticles S tracks →
      muIDOf mcParticles t ∉ S ∧
        firstTrackOf mcParticles tracks (muIDOf mcParticles t) = some t := by
  intro tracks
  induction tracks with
  | nil => intro S t h; simp [acceptedTracks] at h
  | cons track rest ih =>
    intro S t h
    by_cases hacc : isTrueMuon mcParticles track = true ∧ muIDOf mcParticles track ∉ S
    · rw [acceptedTracks_cons_pos mcParticles _ track rest hacc] at h
      have hs : isSpecMuon mcParticles track = true := by
        rw [← isTrueMuon_eq_isSpecMuon]; exact hacc.1
      rcases List.mem_cons.mp h with rfl | h
      · exact ⟨hacc.2, by simp [firstTrackOf, List.find?_cons, hs]⟩
      · obtain ⟨h1, h2⟩ := ih _ t h
        have hne : muIDOf mcParticles track ≠ muIDOf mcParticles t := by
          intro heq
          apply h1
          simp [heq]
        refine ⟨fun hin => h1 (List.mem_append_left _ hin), ?_⟩
        unfold firstTrackOf at h2 ⊢
        rw [List.find?_cons]
        simp [hne, h2]
    · rw [acceptedTracks_cons_neg mcParticles _ track rest hacc] at h
      obtain ⟨h1, h2⟩ := ih _ t h
      refine ⟨h1, ?_⟩
      unfold firstTrackOf at h2 ⊢
      rw [List.find?_cons]
      have : (isSpecMuon mcParticles track &&
          decide (muIDOf mcParticles track = muIDOf mcParticles t)) = false := by
        by_cases hm : isTrueMuon mcParticles track = true
        · have hin : muIDOf mcParticles track ∈ S := by
            by_contra hc; exact hacc ⟨hm, hc⟩
          have hne : muIDOf mcParticles track ≠ muIDOf mcParticles t := fun heq => h1 (heq ▸ hin)
          simp [hne]
        · rw [← isTrueMuon_eq_isSpecMuon]
          simp [hm]
      simp [this, h2]

/-- An accepted track is a track of the event that is a true muon. -/
theorem acceptedTracks_mem (mcParticles : McParticles) (tracks : List FwdTrack) (S : List Int)
    (t : FwdTrack) (h : t ∈ acceptedTracks mcParticles S tracks) :
    t ∈ tracks ∧ isSpecMuon mcParticles t = true ∧ muIDOf mcParticles t ∉ S := by
  obtain ⟨h1, h2⟩ := acceptedTracks_first mcParticles tracks S t h
  unfold firstTrackOf at h2
  have hp := List.find?_some h2
  simp only [Bool.and_eq_true] at hp
  exact ⟨List.mem_of_find?_eq_some h2, hp.1, h1⟩

/-- What `process` does to the state, whenever it completes. -/
theorem process_effect (fuel : Nat) (mcParticles : McParticles) (tracks : List FwdTrack)
    (st st1 : TaskState) (h : process fuel mcParticles st tracks = some st1) :
    st1.eventCounterReco = st.eventCounterReco + 1 ∧
    st1.muPtHistReco = st.muPtHistReco ++
      (tracks.filter (fun t => isTrueMuon mcParticles t && inForwardWindow mcParticles t)).map
        (fun t => mcParticles.pt t.mcParticleId) ∧
    st1.selectedTracksID = st.selectedTracksID ++
      (acceptedTracks mcParticles st.selectedTracksID tracks).map (muIDOf mcParticles) ∧
    st1.muonTracksOut = st.muonTracksOut ++
      (acceptedTracks mcParticles st.selectedTracksID tracks).filterMap
        (lineOf fuel mcParticles) ∧
    (∀ t ∈ acceptedTracks mcParticles st.selectedTracksID tracks,
      (walkOf fuel mcParticles t).isSome = true) ∧
    st1.muPtHistRecoD = st.muPtHistRecoD ++
      ((acceptedTracks mcParticles st.selectedTracksID tracks).filter
        (motherInDRange mcParticles)).map (fun t => mcParticles.pt t.mcParticleId) :=
  processTracks_effect fuel mcParticles tracks _ st1 h

/-- What a run does to the list of selected identities and to the lines written. -/
theorem run_effect (fuel : Nat) :
    ∀ (events : List (McParticles × List FwdTrack)) (st st1 : TaskState),
      run fuel st events = some st1 →
      ∃ emitted : List MuonRecord,
        st1.muonTracksOut = st.muonTracksOut ++ emitted ∧
        st1.selectedTracksID = st.selectedTracksID ++ emitted.map MuonRecord.ID ∧
        (st.selectedTracksID.Nodup → st1.selectedTracksID.Nodup) := by
  intro events
  induction events with
  | nil =>
    intro st st1 h
    simp only [run, Option.some.injEq] at h
    subst h
    exact ⟨[], by simp, by simp, id⟩
  | cons ev rest ih =>
    intro st st1 h
    simp only [run] at h
    cases h0 : process fuel ev.1 st ev.2 with
    | none => rw [h0] at h; cases h
    | some st0 =>
      rw [h0] at h
      simp only at h
      obtain ⟨emitted, e1, e2, e3⟩ := ih st0 st1 h
      obtain ⟨_, _, f3, f4, f5, _⟩ := process_effect fuel ev.1 ev.2 st st0 h0
      refine ⟨(acceptedTracks ev.1 st.selectedTracksID ev.2).filterMap (lineOf fuel ev.1)
        ++ emitted, ?_, ?_, ?_⟩
      · rw [e1, f4, List.append_assoc]
      · rw [e2, f3, List.map_append, lines_ID fuel ev.1 _ f5, List.append_assoc]
      · intro hnd
        apply e3
        rw [f3]
        exact acceptedTracks_nodup ev.1 ev.2 st.selectedTracksID hnd

/-! ## The prompt rule and the traversal -/

/-- C2. Prompt rule: with `m` the code of the muon's first mother and `a` the code of the
particle the traversal leaves in `prevMcPart` (neither being the minimum `int`, on which
`abs` is not defined), the `isPrompt` written in the line is 1 if
`floor(|a| / 100) = floor(|m| / 100)` and 0 otherwise. -/
theorem isPrompt_iff_same_family (mcParticles : McParticles) (track : FwdTrack) (w : WalkState)
    (hm : mcParticles.pdgCode (mcParticles.mothers_first track.mcParticleId) ≠ INT_MIN)
    (ha : mcParticles.pdgCode w.prevMcPart ≠ INT_MIN) :
    (recordOf mcParticles track w).isPrompt =
      if (mcParticles.pdgCode w.prevMcPart).natAbs / 100 =
          (mcParticles.pdgCode (mcParticles.mothers_first track.mcParticleId)).natAbs / 100
      then 1 else 0 := by
  have h1 := divQuot_natAbs _ ha
  have h2 := divQuot_natAbs _ hm
  simp only [recordOf, isPromptOf]
  rw [h1, h2]
  by_cases h : (mcParticles.pdgCode w.prevMcPart).natAbs / 100 =
      (mcParticles.pdgCode (mcParticles.mothers_first track.mcParticleId)).natAbs / 100
  · rw [if_pos h, if_neg (by rw [h]; exact fun hne => hne rfl)]
  · have hcast : (((mcParticles.pdgCode w.prevMcPart).natAbs / 100 : Nat) : Int) ≠
        (((mcParticles.pdgCode (mcParticles.mothers_first track.mcParticleId)).natAbs / 100 :
          Nat) : Int) := by
      exact_mod_cast h
    rw [if_neg h, if_pos hcast]

/-- C2, at concrete inputs: on `tableViaB0` the mother has code 411 and the traversal
leaves the particle of code 411, which gives 1; on `tableViaLambdaB` the mother has code
421 and the traversal leaves the particle of code 5122, which gives 0. -/
theorem isPrompt_iff_same_family_witness :
    (walkOf 1 tableViaB0 (trackOf 0 FloatVal.nan FloatVal.nan) = some ⟨2, 1, 511, [411]⟩ ∧
      tableViaB0.pdgCode (tableViaB0.mothers_first 0) = 411 ∧ tableViaB0.pdgCode 1 = 411 ∧
      (recordOf tableViaB0 (trackOf 0 FloatVal.nan FloatVal.nan) ⟨2, 1, 511, [411]⟩).isPrompt
        = if (tableViaB0.pdgCode 1).natAbs / 100 =
            (tableViaB0.pdgCode (tableViaB0.mothers_first 0)).natAbs / 100 then 1 else 0) ∧
    (walkOf 2 tableViaLambdaB (trackOf 0 FloatVal.nan FloatVal.nan)
        = some ⟨3, 2, 5, [421, 5122]⟩ ∧
      tableViaLambdaB.pdgCode (tableViaLambdaB.mothers_first 0) = 421 ∧
      tableViaLambdaB.pdgCode 2 = 5122 ∧
      (recordOf tableViaLambdaB (trackOf 0 FloatVal.nan FloatVal.nan)
        ⟨3, 2, 5, [421, 5122]⟩).isPrompt
        = if (tableViaLambdaB.pdgCode 2).natAbs / 100 =
            (tableViaLambdaB.pdgCode (tableViaLambdaB.mothers_first 0)).natAbs / 100
          then 1 else 0) ∧
    (recordOf tableViaB0 (trackOf 0 FloatVal.nan FloatVal.nan) ⟨2, 1, 511, [411]⟩).isPrompt = 1 ∧
    (recordOf tableViaLambdaB (trackOf 0 FloatVal.nan FloatVal.nan)
      ⟨3, 2, 5, [421, 5122]⟩).isPrompt = 0 :=
  ⟨⟨by decide, by decide, by decide,
      isPrompt_iff_same_family tableViaB0 (trackOf 0 FloatVal.nan FloatVal.nan)
        ⟨2, 1, 511, [411]⟩ (by decide) (by decide)⟩,
   ⟨by decide, by decide, by decide,
      isPrompt_iff_same_family tableViaLambdaB (trackOf 0 FloatVal.nan FloatVal.nan)
        ⟨3, 2, 5, [421, 5122]⟩ (by decide) (by decide)⟩,
   by decide, by decide⟩

/-- C3, refuted on `tableViaB0`: the traversal from the D+ (row 1) reaches the B0 (row 2),
which has a mother and fails the status test, and stops; `prevMcPart` is then row 1, not
row 2, and the line written carries `isPrompt = 1`, while comparing the code of row 2
with the mother's would give 0. -/
theorem stop_at_current_counterexample :
    walkOf 1 tableViaB0 (trackOf 0 FloatVal.nan FloatVal.nan) = some ⟨2, 1, 511, [411]⟩ ∧
    tableViaB0.has_mothers 2 = true ∧ statusContinues tableViaB0 2 = false ∧
    (process 1 tableViaB0 TaskState.init [trackOf 0 FloatVal.nan FloatVal.nan]).map
      (fun st => st.muonTracksOut.map MuonRecord.isPrompt) = some [1] ∧
    isPromptOf (tableViaB0.pdgCode 2) (abs32 (tableViaB0.pdgCode 1)) = 0 := by
  decide

/-- C3, amended. When the traversal from `start` reaches, after `k` runs of the body, a
particle `c` that has a mother but fails the status test, it stops there (`mcPart = c`),
and the particle left in `prevMcPart`, whose code is compared with the mother's, is the
one visited just before `c`; it is `c` itself only when `c` is `start` (`k = 0`). -/
theorem stop_keeps_previous (mcParticles : McParticles) (start : Int) (k fuel : Nat)
    (hgo : ∀ j, j < k → loopCond mcParticles (ancestor mcParticles start j) = true)
    (hmother : mcParticles.has_mothers (ancestor mcParticles start k) = true)
    (hstatus : statusContinues mcParticles (ancestor mcParticles start k) = false)
    (hfuel : k ≤ fuel) :
    walkLoop mcParticles fuel (walkStart mcParticles start) = some
      { mcPart := ancestor mcParticles start k
        prevMcPart := if k = 0 then start else ancestor mcParticles start (k - 1)
        mcPartPDG := abs32 (mcParticles.pdgCode (ancestor mcParticles start k))
        printed := chainCodes mcParticles start k } := by
  have h := walkLoop_chain mcParticles k (walkStart mcParticles start) fuel rfl hgo
    (by simp [loopCond, walkStart, hmother, hstatus]) hfuel
  simpa [walkStart] using h

/-- C3, amended, on `tableViaB0`: one run of the body from row 1, then the stop at row 2
with `prevMcPart` row 1. -/
theorem stop_keeps_previous_witness :
    (∀ j, j < 1 → loopCond tableViaB0 (ancestor tableViaB0 1 j) = true) ∧
    tableViaB0.has_mothers (ancestor tableViaB0 1 1) = true ∧
    statusContinues tableViaB0 (ancestor tableViaB0 1 1) = false ∧
    walkLoop tableViaB0 3 (walkStart tableViaB0 1) = some
      { mcPart := ancestor tableViaB0 1 1
        prevMcPart := if 1 = 0 then 1 else ancestor tableViaB0 1 (1 - 1)
        mcPartPDG := abs32 (tableViaB0.pdgCode (ancestor tableViaB0 1 1))
        printed := chainCodes tableViaB0 1 1 } :=
  ⟨by decide, by decide, by decide,
    stop_keeps_previous tableViaB0 1 1 3 (by decide) (by decide) (by decide) (by decide)⟩

/-- C4. Return-previous: if the first `k` particles of the chain from `start` pass the
loop condition (they have a mother and pass the status test) and the next one does not,
the traversal ends, given `k` runs of the body or more, and the particle it leaves for
the classification is the last of those `k` particles; it is `start` when there is none
(`k = 0`). -/
theorem walk_returns_last_continuing (mcParticles : McParticles) (start : Int) (k fuel : Nat)
    (hgo : ∀ j, j < k → loopCond mcParticles (ancestor mcParticles start j) = true)
    (hstop : loopCond mcParticles (ancestor mcParticles start k) = false)
    (hfuel : k ≤ fuel) :
    (walkLoop mcParticles fuel (walkStart mcParticles start)).map WalkState.prevMcPart =
      some (if k = 0 then start else ancestor mcParticles start (k - 1)) := by
  rw [walkLoop_chain mcParticles k (walkStart mcParticles start) fuel rfl hgo hstop hfuel]
  simp [walkStart]

/-- C4 on `tableViaLambdaB`: rows 1 and 2 pass the loop condition, row 3 does not, and the
traversal leaves row 2. -/
theorem walk_returns_last_continuing_witness :
    (∀ j, j < 2 → loopCond tableViaLambdaB (ancestor tableViaLambdaB 1 j) = true) ∧
    loopCond tableViaLambdaB (ancestor tableViaLambdaB 1 2) = false ∧
    (walkLoop tableViaLambdaB 2 (walkStart tableViaLambdaB 1)).map WalkState.prevMcPart =
      some (if 2 = 0 then 1 else ancestor tableViaLambdaB 1 (2 - 1)) ∧
    ancestor tableViaLambdaB 1 (2 - 1) = 2 :=
  ⟨by decide, by decide,
    walk_returns_last_continuing tableViaLambdaB 1 2 2 (by decide) (by decide) (by decide),
    by decide⟩

/-- C5, refuted on `tableAllTechnical`: both particles of the chain row 1 -> row 2 pass the
status test and row 2 has no mother; the traversal ends with `mcPart` at row 2, but the
particle it leaves for the classification is row 1, and the line written carries
`isPrompt = 1`, while comparing the code of row 2 with the mother's would give 0. -/
theorem all_technical_counterexample :
    statusContinues tableAllTechnical 1 = true ∧ statusContinues tableAllTechnical 2 = true ∧
    tableAllTechnical.has_mothers 1 = true ∧ tableAllTechnical.mothers_first 1 = 2 ∧
    tableAllTechnical.has_mothers 2 = false ∧
    walkOf 1 tableAllTechnical (trackOf 0 FloatVal.nan FloatVal.nan)
      = some ⟨2, 1, 5122, [421]⟩ ∧
    (process 1 tableAllTechnical TaskState.init [trackOf 0 FloatVal.nan FloatVal.nan]).map
      (fun st => st.muonTracksOut.map MuonRecord.isPrompt) = some [1] ∧
    isPromptOf (tableAllTechnical.pdgCode 2) (abs32 (tableAllTechnical.pdgCode 1)) = 0 := by
  decide

/-- C5, amended. On a chain `a0 -> ... -> an` of first-mother links in which every particle
passes the status test and only `an` has no mother, the traversal from `a0` does not end
in fewer than `n` runs of the body, and after `n` runs it ends with `mcPart = an`; the
particle it leaves for the classification is `a(n-1)`, the last one that has a mother
(and `a0` when `n = 0`). -/
theorem all_technical_chain (mcParticles : McParticles) (start : Int) (n : Nat)
    (hstatus : ∀ j, j ≤ n → statusContinues mcParticles (ancestor mcParticles start j) = true)
    (hmothers : ∀ j, j < n → mcParticles.has_mothers (ancestor mcParticles start j) = true)
    (hend : mcParticles.has_mothers (ancestor mcParticles start n) = false) :
    (∀ fuel, fuel < n → walkLoop mcParticles fuel (walkStart mcParticles start) = none) ∧
    (∀ fuel, n ≤ fuel → walkLoop mcParticles fuel (walkStart mcParticles start) = some
      { mcPart := ancestor mcParticles start n
        prevMcPart := if n = 0 then start else ancestor mcParticles start (n - 1)
        mcPartPDG := abs32 (mcParticles.pdgCode (ancestor mcParticles start n))
        printed := chainCodes mcParticles start n }) := by
  have hgo : ∀ j, j < n → loopCond mcParticles (ancestor mcParticles start j) = true := by
    intro j hj
    simp [loopCond, hmothers j hj, hstatus j (Nat.le_of_lt hj)]
  refine ⟨fun fuel hfuel => walkLoop_short mcParticles n (walkStart mcParticles start) fuel hgo hfuel,
    fun fuel hfuel => ?_⟩
  have h := walkLoop_chain mcParticles n (walkStart mcParticles start) fuel rfl hgo
    (by simp [loopCond, walkStart, hend]) hfuel
  simpa [walkStart] using h

/-- C5, amended, on `tableAllTechnical` (`n = 1`): no end without a run of the body, and
after one run `mcPart` is row 2 and `prevMcPart` is row 1. -/
theorem all_technical_chain_witness :
    (∀ j, j ≤ 1 → statusContinues tableAllTechnical (ancestor tableAllTechnical 1 j) = true) ∧
    (∀ j, j < 1 → tableAllTechnical.has_mothers (ancestor tableAllTechnical 1 j) = true) ∧
    tableAllTechnical.has_mothers (ancestor tableAllTechnical 1 1) = false ∧
    walkLoop tableAllTechnical 0 (walkStart tableAllTechnical 1) = none ∧
    walkLoop tableAllTechnical 1 (walkStart tableAllTechnical 1) = some
      { mcPart := ancestor tableAllTechnical 1 1
        prevMcPart := if 1 = 0 then 1 else ancestor tableAllTechnical 1 (1 - 1)
        mcPartPDG := abs32 (tableAllTechnical.pdgCode (ancestor tableAllTechnical 1 1))
        printed := chainCodes tableAllTechnical 1 1 } :=
  ⟨by decide, by decide, by decide,
    (all_technical_chain tableAllTechnical 1 1 (by decide) (by decide) (by decide)).1 0
      (by decide),
    (all_technical_chain tableAllTechnical 1 1 (by decide) (by decide) (by decide)).2 1
      (by decide)⟩

/-- C6. Immediate stop: when the start particle has no mother, or its status code `g` has
`|g| <= 80` and `g != 0`, the traversal ends for every bound without a run of the body
(nothing is printed) and all its variables, `prevMcPart` among them, are as set before
the loop: the start particle. -/
theorem immediate_stop (mcParticles : McParticles) (start : Int) (fuel : Nat)
    (h : mcParticles.has_mothers start = false ∨
      ((mcParticles.getGenStatusCode start).natAbs ≤ 80 ∧
        mcParticles.getGenStatusCode start ≠ 0)) :
    walkLoop mcParticles fuel (walkStart mcParticles start) = some
      { mcPart := start, prevMcPart := start,
        mcPartPDG := abs32 (mcParticles.pdgCode start), printed := [] } := by
  have hcond : loopCond mcParticles (walkStart mcParticles start).mcPart = false := by
    rcases h with h | ⟨h1, h2⟩
    · simp [loopCond, walkStart, h]
    · have hne : mcParticles.getGenStatusCode start ≠ INT_MIN := by
        intro hc
        rw [hc] at h1
        revert h1
        decide
      have habs := abs32_of_ne_min _ hne
      have : ¬ abs32 (mcParticles.getGenStatusCode start) > 80 := by
        rw [habs]; omega
      simp [loopCond, statusContinues, walkStart, this, h2]
  rw [walkLoop_zero_iter mcParticles fuel _ hcond]
  rfl

/-- C6 on `tableDirect`: the D+ of row 1 has a mother but status code 1, and the traversal
from it ends at once, with no bound on the runs at all. -/
theorem immediate_stop_witness :
    (tableDirect.has_mothers 1 = false ∨
      ((tableDirect.getGenStatusCode 1).natAbs ≤ 80 ∧ tableDirect.getGenStatusCode 1 ≠ 0)) ∧
    walkLoop tableDirect 0 (walkStart tableDirect 1) = some
      { mcPart := 1, prevMcPart := 1, mcPartPDG := abs32 (tableDirect.pdgCode 1), printed := [] } :=
  ⟨by decide, immediate_stop tableDirect 1 0 (by decide)⟩

/-- C1. Dedup invariant: after any sequence of `process` calls that starts with
`selectedTracksID` empty, the lines written by these calls carry pairwise distinct
identities, so that at most one of them carries a given identity `I`, and
`selectedTracksID` is the list of these identities, without duplicate. -/
theorem dedup_invariant (fuel : Nat) (events : List (McParticles × List FwdTrack))
    (st st1 : TaskState) (hempty : st.selectedTracksID = [])
    (h : run fuel st events = some st1) :
    ∃ emitted : List MuonRecord,
      st1.muonTracksOut = st.muonTracksOut ++ emitted ∧
      st1.selectedTracksID = emitted.map MuonRecord.ID ∧
      st1.selectedTracksID.Nodup ∧
      (emitted.map MuonRecord.ID).Nodup ∧
      ∀ I : Int, emitted.countP (fun r => decide (r.ID = I)) ≤ 1 := by
  obtain ⟨emitted, e1, e2, e3⟩ := run_effect fuel events st st1 h
  rw [hempty, List.nil_append] at e2
  have hnd : st1.selectedTracksID.Nodup := e3 (by rw [hempty]; exact List.nodup_nil)
  have hnd1 : (emitted.map MuonRecord.ID).Nodup := by rw [← e2]; exact hnd
  refine ⟨emitted, e1, e2, hnd, hnd1, fun I => ?_⟩
  have hc := List.nodup_iff_count_le_one.mp hnd1 I
  have : emitted.countP (fun r => decide (r.ID = I)) = (emitted.map MuonRecord.ID).count I := by
    rw [List.count, List.countP_map]
    congr 1
  rw [this]
  exact hc

/-- C1 on `eventsWithDuplicates`: the muon of row 0 is referenced by two tracks of the
first event and one of the second, and a single line carries identity 0. -/
theorem dedup_invariant_witness :
    TaskState.init.selectedTracksID = [] ∧
    run 2 TaskState.init eventsWithDuplicates = some finalWithDuplicates ∧
    finalWithDuplicates.muonTracksOut.map MuonRecord.ID = [0, 77] ∧
    ∃ emitted : List MuonRecord,
      finalWithDuplicates.muonTracksOut = TaskState.init.muonTracksOut ++ emitted ∧
      finalWithDuplicates.selectedTracksID = emitted.map MuonRecord.ID ∧
      finalWithDuplicates.selectedTracksID.Nodup ∧
      (emitted.map MuonRecord.ID).Nodup ∧
      ∀ I : Int, emitted.countP (fun r => decide (r.ID = I)) ≤ 1 :=
  ⟨rfl, by decide, by decide,
    dedup_invariant 2 eventsWithDuplicates TaskState.init finalWithDuplicates rfl (by decide)⟩

/-- The pass for one track with the call of line 85 aborting: it aborts exactly on a true
muon that is not selected yet and has an empty mother list, and is the pass of
`processTrack` otherwise. -/
theorem processTrackOutcome_eq (fuel : Nat) (mcParticles : McParticles) (st : TaskState)
    (track : FwdTrack) :
    processTrackOutcome fuel mcParticles st track =
      if isTrueMuon mcParticles track = true ∧ muIDOf mcParticles track ∉ st.selectedTracksID ∧
          mcParticles.has_mothers track.mcParticleId = false then CallOutcome.aborted
      else match processTrack fuel mcParticles st track with
        | none => CallOutcome.unfinished
        | some st1 => CallOutcome.returned st1 := by
  by_cases h1 : track.has_mcParticle = true
  · by_cases h2 : abs32 (mcParticles.pdgCode track.mcParticleId) = 13
    · have hm : isTrueMuon mcParticles track = true := by simp [isTrueMuon, h1, h2]
      by_cases hseen : muIDOf mcParticles track ∈ st.selectedTracksID
      · have hc : ¬ (List.count (mcParticles.globalIndex track.mcParticleId)
            st.selectedTracksID < 1) := by
          have := List.count_pos_iff.mpr hseen
          unfold muIDOf at this
          omega
        rw [if_neg (fun h => h.2.1 hseen)]
        unfold processTrackOutcome processTrack
        by_cases hw : inForwardWindow mcParticles track = true
        · unfold inForwardWindow at hw
          simp only [h1, h2, hw, if_true, TaskState.fillMuPtHistReco, hc, if_false]
        · unfold inForwardWindow at hw
          simp only [h1, h2, hw, Bool.false_eq_true, if_true, if_false, hc]
      · have hc : List.count (mcParticles.globalIndex track.mcParticleId)
            st.selectedTracksID < 1 := by
          have := List.count_eq_zero.mpr hseen
          unfold muIDOf at this
          omega
        by_cases hmo : mcParticles.has_mothers track.mcParticleId = true
        · rw [if_neg (fun h => by rw [hmo] at h; exact absurd h.2.2 (by decide))]
          unfold processTrackOutcome processTrack McParticles.mothers_first_as
          by_cases hw : inForwardWindow mcParticles track = true
          · unfold inForwardWindow at hw
            simp only [h1, h2, hw, hmo, if_true, TaskState.fillMuPtHistReco, hc]
            cases walkLoop mcParticles fuel
              (walkStart mcParticles (mcParticles.mothers_first track.mcParticleId)) <;> rfl
          · unfold inForwardWindow at hw
            simp only [h1, h2, hw, hmo, Bool.false_eq_true, if_true, if_false, hc]
            cases walkLoop mcParticles fuel
              (walkStart mcParticles (mcParticles.mothers_first track.mcParticleId)) <;> rfl
        · have hmo1 : mcParticles.has_mothers track.mcParticleId = false := by simpa using hmo
          rw [if_pos ⟨hm, hseen, hmo1⟩]
          unfold processTrackOutcome McParticles.mothers_first_as
          by_cases hw : inForwardWindow mcParticles track = true
          · unfold inForwardWindow at hw
            simp only [h1, h2, hw, hmo1, Bool.false_eq_true, if_true, if_false,
              TaskState.fillMuPtHistReco, hc]
          · unfold inForwardWindow at hw
            simp only [h1, h2, hw, hmo1, Bool.false_eq_true, if_true, if_false, hc]
    · have hm : ¬ isTrueMuon mcParticles track = true := by simp [isTrueMuon, h1, h2]
      rw [if_neg (fun h => hm h.1),
        processTrack_not_muon fuel mcParticles st track (by simpa using hm)]
      unfold processTrackOutcome
      simp only [h1, h2, if_true, if_false]
  · have hm : ¬ isTrueMuon mcParticles track = true := by simp [isTrueMuon, h1]
    rw [if_neg (fun h => hm h.1),
      processTrack_not_muon fuel mcParticles st track (by simpa using hm)]
    unfold processTrackOutcome
    simp only [h1, Bool.false_eq_true, if_false]


/-- A true muon that is not selected yet and has an empty mother list: the pass aborts at
the call of line 85, whatever the bound on the runs of the traversal. -/
theorem processTrackOutcome_motherless (fuel : Nat) (mcParticles : McParticles) (st : TaskState)
    (track : FwdTrack) (hm : isTrueMuon mcParticles track = true)
    (hnew : muIDOf mcParticles track ∉ st.selectedTracksID)
    (hno : mcParticles.has_mothers track.mcParticleId = false) :
    processTrackOutcome fuel mcParticles st track = CallOutcome.aborted := by
  rw [processTrackOutcome_eq, if_pos ⟨hm, hnew, hno⟩]

/-- When the pass with the call of line 85 aborting returns, the pass of `processTrack`
returns the same state. -/
theorem processTrackOutcome_returned (fuel : Nat) (mcParticles : McParticles)
    (st st1 : TaskState) (track : FwdTrack)
    (h : processTrackOutcome fuel mcParticles st track = CallOutcome.returned st1) :
    processTrack fuel mcParticles st track = some st1 := by
  rw [processTrackOutcome_eq] at h
  split_ifs at h with hab
  cases hp : processTrack fuel mcParticles st track with
  | none => rw [hp] at h; cases h
  | some st2 =>
    rw [hp] at h
    simp only [CallOutcome.returned.injEq] at h
    rw [h]

/-- When `processOutcome` returns, `process` returns the same state: what is proved of the
states that `process` returns holds of every call that returns. -/
theorem processOutcome_returned (fuel : Nat) (mcParticles : McParticles) (st st1 : TaskState)
    (tracks : List FwdTrack)
    (h : processOutcome fuel mcParticles st tracks = CallOutcome.returned st1) :
    process fuel mcParticles st tracks = some st1 := by
  have key : ∀ (tracks : List FwdTrack) (st st1 : TaskState),
      processTracksOutcome fuel mcParticles st tracks = CallOutcome.returned st1 →
      processTracks fuel mcParticles st tracks = some st1 := by
    intro tracks
    induction tracks with
    | nil =>
      intro st st1 h
      simp only [processTracksOutcome, CallOutcome.returned.injEq] at h
      simp [processTracks, h]
    | cons track rest ih =>
      intro st st1 h
      simp only [processTracksOutcome] at h
      cases h0 : processTrackOutcome fuel mcParticles st track with
      | returned st0 =>
        rw [h0] at h
        simp only [processTracks, processTrackOutcome_returned fuel mcParticles st st0 track h0]
        exact ih st0 st1 h
      | aborted => rw [h0] at h; cases h
      | unfinished => rw [h0] at h; cases h
  exact key tracks _ st1 h

/-- On an event whose muon tracks all have a mother, the call of line 85 returns each time
and `processOutcome` is the outcome of `process`: the state it returns, or no end within
the bound. -/
theorem processOutcome_of_mothers (fuel : Nat) (mcParticles : McParticles) (st : TaskState)
    (tracks : List FwdTrack)
    (hall : ∀ t ∈ tracks, isSpecMuon mcParticles t = true →
      mcParticles.has_mothers t.mcParticleId = true) :
    processOutcome fuel mcParticles st tracks =
      match process fuel mcParticles st tracks with
      | none => CallOutcome.unfinished
      | some st1 => CallOutcome.returned st1 := by
  have key : ∀ (tracks : List FwdTrack) (st : TaskState),
      (∀ t ∈ tracks, isSpecMuon mcParticles t = true →
        mcParticles.has_mothers t.mcParticleId = true) →
      processTracksOutcome fuel mcParticles st tracks =
        match processTracks fuel mcParticles st tracks with
        | none => CallOutcome.unfinished
        | some st1 => CallOutcome.returned st1 := by
    intro tracks
    induction tracks with
    | nil => intro st _; rfl
    | cons track rest ih =>
      intro st hall
      have hno : ¬ (isTrueMuon mcParticles track = true ∧
          muIDOf mcParticles track ∉ st.selectedTracksID ∧
          mcParticles.has_mothers track.mcParticleId = false) := by
        rintro ⟨hm, _, hf⟩
        rw [isTrueMuon_eq_isSpecMuon] at hm
        rw [hall track (List.mem_cons_self _ _) hm] at hf
        cases hf
      simp only [processTracksOutcome, processTracks]
      rw [processTrackOutcome_eq, if_neg hno]
      cases processTrack fuel mcParticles st track with
      | none => rfl
      | some st0 => exact ih st0 (fun t ht => hall t (List.mem_cons_of_mem _ ht))
  exact key tracks _ hall

/-- When the first track of the event is labelled with a true muon that is not selected
yet and has an empty mother list, the call aborts. -/
theorem processOutcome_motherless_first (fuel : Nat) (mcParticles : McParticles)
    (st : TaskState) (track : FwdTrack) (rest : List FwdTrack)
    (hm : isTrueMuon mcParticles track = true)
    (hnew : muIDOf mcParticles track ∉ st.selectedTracksID)
    (hno : mcParticles.has_mothers track.mcParticleId = false) :
    processOutcome fuel mcParticles st (track :: rest) = CallOutcome.aborted := by
  have h := processTrackOutcome_motherless fuel mcParticles
    { st with eventCounterReco := st.eventCounterReco + 1 } track hm hnew hno
  simp only [processOutcome, processTracksOutcome, h]

/-- C8, on `tableMotherless` and `tracksMotherless`: the first track is labelled with a muon
that is not selected yet and whose mother list is empty. The pass for it reaches the
call of line 85, which nothing guards, and the call aborts the program, whatever the
bound on the runs of the traversal: the track is not skipped, and the second track,
which alone gives a line, is never processed. -/
theorem motherless_muon_aborts :
    tableMotherless.has_mothers 0 = false ∧
    isSpecMuon tableMotherless (trackOf 0 (FloatVal.ofInt (-3)) (FloatVal.ofInt 2)) = true ∧
    muIDOf tableMotherless (trackOf 0 (FloatVal.ofInt (-3)) (FloatVal.ofInt 2))
      ∉ TaskState.init.selectedTracksID ∧
    processOutcome 0 tableMotherless TaskState.init
      [trackOf 1 (FloatVal.ofInt (-3)) (FloatVal.ofInt 4)]
        = CallOutcome.returned finalSecondTrack ∧
    finalSecondTrack.muonTracksOut.map MuonRecord.ID = [1] ∧
    ∀ fuel, processOutcome fuel tableMotherless TaskState.init tracksMotherless
      = CallOutcome.aborted :=
  ⟨by decide, by decide, by decide, by decide, by decide,
    fun fuel => processOutcome_motherless_first fuel tableMotherless TaskState.init _ _
      (by decide) (by decide) (by decide)⟩

/-- C9, refuted on `tableViaB0`: the first mother of the muon has code 411, whose family
code is 4, and the sixth field of the line written is 411. -/
theorem mother_field_counterexample :
    process 1 tableViaB0 TaskState.init [trackOf 0 (FloatVal.ofInt (-3)) (FloatVal.ofInt 2)]
      = some finalViaB0 ∧
    tableViaB0.pdgCode (tableViaB0.mothers_first 0) = 411 ∧
    finalViaB0.muonTracksOut.map MuonRecord.motherPDG = [411] ∧
    (tableViaB0.pdgCode (tableViaB0.mothers_first 0)).natAbs / 100 = 4 ∧
    divQuot (abs32 (tableViaB0.pdgCode (tableViaB0.mothers_first 0))) 100 = 4 := by
  decide

/-- C9, amended. The sixth field of every line that `process` writes is `muMotherPDG`, the
value of `abs` at the code of the first mother of the muon the line is for: the absolute
code itself, not its family code. -/
theorem mother_field_is_abs_code (fuel : Nat) (mcParticles : McParticles) (st st1 : TaskState)
    (tracks : List FwdTrack) (h : process fuel mcParticles st tracks = some st1) :
    ∃ emitted : List MuonRecord,
      st1.muonTracksOut = st.muonTracksOut ++ emitted ∧
      ∀ r ∈ emitted, ∃ t ∈ tracks,
        isSpecMuon mcParticles t = true ∧ r.ID = muIDOf mcParticles t ∧
        r.motherPDG = abs32 (mcParticles.pdgCode (mcParticles.mothers_first t.mcParticleId)) ∧
        (mcParticles.pdgCode (mcParticles.mothers_first t.mcParticleId) ≠ INT_MIN →
          r.motherPDG =
            ((mcParticles.pdgCode (mcParticles.mothers_first t.mcParticleId)).natAbs : Int)) := by
  obtain ⟨_, _, _, f4, f5, _⟩ := process_effect fuel mcParticles tracks st st1 h
  refine ⟨_, f4, ?_⟩
  intro r hr
  obtain ⟨t, ht, hrt⟩ := List.mem_filterMap.mp hr
  obtain ⟨w, hw⟩ := Option.isSome_iff_exists.mp (f5 t ht)
  simp only [lineOf, hw, Option.map_some', Option.some.injEq] at hrt
  subst hrt
  obtain ⟨h1, h2, _⟩ := acceptedTracks_mem mcParticles tracks _ t ht
  exact ⟨t, h1, h2, rfl, rfl, fun hne => abs32_of_ne_min _ hne⟩

/-- C9, amended, on `tableViaB0`: the line written carries 411. -/
theorem mother_field_is_abs_code_witness :
    process 1 tableViaB0 TaskState.init [trackOf 0 (FloatVal.ofInt (-3)) (FloatVal.ofInt 2)]
      = some finalViaB0 ∧
    ∃ emitted : List MuonRecord,
      finalViaB0.muonTracksOut = TaskState.init.muonTracksOut ++ emitted ∧
      ∀ r ∈ emitted, ∃ t ∈ [trackOf 0 (FloatVal.ofInt (-3)) (FloatVal.ofInt 2)],
        isSpecMuon tableViaB0 t = true ∧ r.ID = muIDOf tableViaB0 t ∧
        r.motherPDG = abs32 (tableViaB0.pdgCode (tableViaB0.mothers_first t.mcParticleId)) ∧
        (tableViaB0.pdgCode (tableViaB0.mothers_first t.mcParticleId) ≠ INT_MIN →
          r.motherPDG =
            ((tableViaB0.pdgCode (tableViaB0.mothers_first t.mcParticleId)).natAbs : Int)) :=
  ⟨by decide, mother_field_is_abs_code 1 tableViaB0 TaskState.init finalViaB0 _ (by decide)⟩

theorem process_isSome (fuel : Nat) (mcParticles : McParticles) (st : TaskState)
    (tracks : List FwdTrack)
    (hends : ∀ t ∈ tracks, isSpecMuon mcParticles t = true →
      muIDOf mcParticles t ∉ st.selectedTracksID → (walkOf fuel mcParticles t).isSome = true) :
    (process fuel mcParticles st tracks).isSome = true := by
  have hall : ∀ t ∈ acceptedTracks mcParticles st.selectedTracksID tracks,
      (walkOf fuel mcParticles t).isSome = true := by
    intro t ht
    obtain ⟨h1, h2, h3⟩ := acceptedTracks_mem mcParticles tracks _ t ht
    exact hends t h1 h2 h3
  obtain ⟨st1, h⟩ := processTracks_isSome fuel mcParticles tracks
    { st with eventCounterReco := st.eventCounterReco + 1 } hall
  have h0 : process fuel mcParticles st tracks = some st1 := h
  rw [h0]
  rfl

theorem family_of_ne_min (c : Int) (h : c ≠ INT_MIN) : family c = ((c.natAbs / 100 : Nat) : Int) :=
  divQuot_natAbs c h

theorem classify_eq (m a : Int) : classify m a = if family a ≠ family m then 0 else 1 := rfl

/-- C13, refuted at code 411: its family code is 4, and the family code of 4 is 0. -/
theorem family_idempotent_counterexample :
    family 411 = 4 ∧ family (family 411) = 0 ∧ family (family 411) ≠ family 411 := by
  decide

/-- C13, amended. Applying `family` twice divides by 100 twice: for every code `c`,
`family(family(c)) = floor(|c| / 10000)`, and this is `family(c)` exactly when
`|c| < 100`, where both are 0. -/
theorem family_twice (c : Int) :
    family (family c) = ((c.natAbs / 10000 : Nat) : Int) ∧
    (family (family c) = family c ↔ c.natAbs < 100) := by
  by_cases h : c = INT_MIN
  · subst h; decide
  · have h1 := family_of_ne_min c h
    have hne : family c ≠ INT_MIN := by
      rw [h1]; unfold INT_MIN; omega
    have h2 := family_of_ne_min (family c) hne
    rw [h2, h1]
    simp only [Int.natAbs_ofNat]
    constructor
    · congr 1
      rw [Nat.div_div_eq_div_mul]
    · constructor
      · intro heq
        have : c.natAbs / 100 / 100 = c.natAbs / 100 := by exact_mod_cast heq
        omega
      · intro hlt
        have : c.natAbs / 100 = 0 := by omega
        rw [this]

/-- C14. The family code ignores the last two digits: for every `k >= 0` such that
`100 * k + 39` fits a 32-bit `int`, `family(100 * k) = family(100 * k + 39) = k`, so
that a first mother of code `100 * k` and a `prevMcPart` of code `100 * k + 39` give
`isPrompt = 1` in the line written. -/
theorem family_ignores_last_digits (k : Int) (hk : 0 ≤ k) (hfit : 100 * k + 39 ≤ INT_MAX) :
    family (100 * k) = k ∧ family (100 * k + 39) = k ∧
    classify (100 * k) (100 * k + 39) = 1 ∧
    ∀ (mcParticles : McParticles) (track : FwdTrack) (w : WalkState),
      mcParticles.pdgCode (mcParticles.mothers_first track.mcParticleId) = 100 * k →
      mcParticles.pdgCode w.prevMcPart = 100 * k + 39 →
      (recordOf mcParticles track w).isPrompt = 1 := by
  have hmax : 100 * k + 39 ≤ 2147483647 := hfit
  have h1 : family (100 * k) = k := by
    rw [family_of_ne_min _ (by unfold INT_MIN; omega)]
    omega
  have h2 : family (100 * k + 39) = k := by
    rw [family_of_ne_min _ (by unfold INT_MIN; omega)]
    omega
  have h3 : classify (100 * k) (100 * k + 39) = 1 := by
    rw [classify_eq, h1, h2]
    simp
  refine ⟨h1, h2, h3, ?_⟩
  intro mcParticles track w hm ha
  have : (recordOf mcParticles track w).isPrompt =
      classify (mcParticles.pdgCode (mcParticles.mothers_first track.mcParticleId))
        (mcParticles.pdgCode w.prevMcPart) := rfl
  rw [this, hm, ha, h3]

/-- C14 at `k = 4`: codes 400 and 439 have family code 4 and give `isPrompt = 1`. -/
theorem family_ignores_last_digits_witness :
    (0 : Int) ≤ 4 ∧ (100 * 4 + 39 : Int) ≤ INT_MAX ∧
    (family (100 * 4) = 4 ∧ family (100 * 4 + 39) = 4 ∧
    classify (100 * 4) (100 * 4 + 39) = 1 ∧
    ∀ (mcParticles : McParticles) (track : FwdTrack) (w : WalkState),
      mcParticles.pdgCode (mcParticles.mothers_first track.mcParticleId) = 100 * 4 →
      mcParticles.pdgCode w.prevMcPart = 100 * 4 + 39 →
      (recordOf mcParticles track w).isPrompt = 1) :=
  ⟨by decide, by decide, family_ignores_last_digits 4 (by decide) (by decide)⟩

/-- C18. Charge conjugation and symmetry of the prompt rule: for codes `m` and `a` that are
32-bit `int` values other than the minimum, the decision is the same for `-m` as for
`m` and for `-a` as for `a`, it is the same with the two codes exchanged, and the mother
code written in the line is the same for `m` and `-m`. -/
theorem classify_symmetries (m a : Int) (hm : INT_MIN < m ∧ m ≤ INT_MAX)
    (ha : INT_MIN < a ∧ a ≤ INT_MAX) :
    classify (-m) a = classify m a ∧ classify m (-a) = classify m a ∧
    classify m a = classify a m ∧ abs32 (-m) = abs32 m ∧
    ∀ (tbl1 tbl2 : McParticles) (t1 t2 : FwdTrack) (w1 w2 : WalkState),
      tbl1.pdgCode (tbl1.mothers_first t1.mcParticleId) = m →
      tbl2.pdgCode (tbl2.mothers_first t2.mcParticleId) = -m →
      (recordOf tbl1 t1 w1).motherPDG = (recordOf tbl2 t2 w2).motherPDG := by
  have habs : ∀ x : Int, INT_MIN < x ∧ x ≤ INT_MAX → abs32 (-x) = abs32 x := by
    intro x hx
    unfold INT_MIN INT_MAX at hx
    unfold abs32 INT_MIN
    split_ifs <;> omega
  have hfam : ∀ x : Int, INT_MIN < x ∧ x ≤ INT_MAX → family (-x) = family x := by
    intro x hx
    unfold family
    rw [habs x hx]
  refine ⟨?_, ?_, ?_, habs m hm, ?_⟩
  · rw [classify_eq, classify_eq, hfam m hm]
  · rw [classify_eq, classify_eq, hfam a ha]
  · rw [classify_eq, classify_eq]
    by_cases h : family a = family m
    · simp [h]
    · have h1 : family m ≠ family a := fun e => h e.symm
      simp [h, h1]
  · intro tbl1 tbl2 t1 t2 w1 w2 h1 h2
    simp only [recordOf, h1, h2, habs m hm]

/-- C18 at `m = 411` and `a = -5122`. -/
theorem classify_symmetries_witness :
    (INT_MIN < (411 : Int) ∧ (411 : Int) ≤ INT_MAX) ∧
    (INT_MIN < (-5122 : Int) ∧ (-5122 : Int) ≤ INT_MAX) ∧
    classify 411 (-5122) = 0 ∧ classify (-411) 5122 = 0 ∧ classify 421 (-411) = 1 ∧
    (classify (-411) (-5122) = classify 411 (-5122) ∧
    classify 411 (-(-5122)) = classify 411 (-5122) ∧
    classify 411 (-5122) = classify (-5122) 411 ∧ abs32 (-411) = abs32 411 ∧
    ∀ (tbl1 tbl2 : McParticles) (t1 t2 : FwdTrack) (w1 w2 : WalkState),
      tbl1.pdgCode (tbl1.mothers_first t1.mcParticleId) = 411 →
      tbl2.pdgCode (tbl2.mothers_first t2.mcParticleId) = -411 →
      (recordOf tbl1 t1 w1).motherPDG = (recordOf tbl2 t2 w2).motherPDG) :=
  ⟨by decide, by decide, by decide, by decide, by decide,
    classify_symmetries 411 (-5122) (by decide) (by decide)⟩

/-! ## Termination of the traversal -/

theorem ancestor_add (mcParticles : McParticles) (start : Int) (n i : Nat) :
    ancestor mcParticles start (n + i) =
      (mcParticles.mothers_first)^[n] (ancestor mcParticles start i) := by
  simp [ancestor, Function.iterate_add_apply]

theorem ancestor_succ (mcParticles : McParticles) (start : Int) (j : Nat) :
    ancestor mcParticles start (j + 1) =
      mcParticles.mothers_first (ancestor mcParticles start j) := by
  simp [ancestor, Function.iterate_succ_apply']

theorem chainCodes_length (mcParticles : McParticles) (start : Int) (k : Nat) :
    (chainCodes mcParticles start k).length = k := by
  simp [chainCodes]

/-- A traversal that ends has run the body some `k` times, over `k` particles that pass the
loop condition, and stopped at one that does not. -/
theorem walkLoop_inv (mcParticles : McParticles) :
    ∀ (fuel : Nat) (s w : WalkState), walkLoop mcParticles fuel s = some w →
      ∃ k, k ≤ fuel ∧
        (∀ j, j < k → loopCond mcParticles (ancestor mcParticles s.mcPart j) = true) ∧
        loopCond mcParticles (ancestor mcParticles s.mcPart k) = false := by
  intro fuel
  induction fuel with
  | zero =>
    intro s w h
    by_cases hc : loopCond mcParticles s.mcPart = true
    · simp [walkLoop, hc] at h
    · exact ⟨0, le_refl _, fun j hj => absurd hj (Nat.not_lt_zero j), by simpa [ancestor] using hc⟩
  | succ fuel ih =>
    intro s w h
    by_cases hc : loopCond mcParticles s.mcPart = true
    · rw [walkLoop_step mcParticles fuel s hc] at h
      obtain ⟨k, hk, hgo, hstop⟩ := ih _ w h
      have hshift : ∀ j, ancestor mcParticles (loopBody mcParticles s).mcPart j
          = ancestor mcParticles s.mcPart (j + 1) := fun j => ancestor_shift mcParticles s.mcPart j
      refine ⟨k + 1, by omega, ?_, by rw [← hshift]; exact hstop⟩
      intro j hj
      cases j with
      | zero => simpa [ancestor] using hc
      | succ j => rw [← hshift]; exact hgo j (by omega)
    · exact ⟨0, Nat.zero_le _, fun j hj => absurd hj (Nat.not_lt_zero j),
        by simpa [ancestor] using hc⟩

/-- A traversal that ends, from the variables as set before the loop, ends in the state
that `k` runs of the body give. -/
theorem walkLoop_result (mcParticles : McParticles) (fuel : Nat) (start : Int) (w : WalkState)
    (h : walkLoop mcParticles fuel (walkStart mcParticles start) = some w) :
    ∃ k, k ≤ fuel ∧
      (∀ j, j < k → loopCond mcParticles (ancestor mcParticles start j) = true) ∧
      loopCond mcParticles (ancestor mcParticles start k) = false ∧
      w = { mcPart := ancestor mcParticles start k
            prevMcPart := if k = 0 then start else ancestor mcParticles start (k - 1)
            mcPartPDG := abs32 (mcParticles.pdgCode (ancestor mcParticles start k))
            printed := chainCodes mcParticles start k } := by
  obtain ⟨k, hk, hgo, hstop⟩ := walkLoop_inv mcParticles fuel _ w h
  refine ⟨k, hk, hgo, hstop, ?_⟩
  have h2 := walkLoop_chain mcParticles k (walkStart mcParticles start) fuel rfl hgo hstop hk
  rw [h] at h2
  simpa [walkStart] using h2

/-- On a chain that ends at a particle without mother, no particle occurs twice. -/
theorem chain_no_repeat (mcParticles : McParticles) (start : Int) (d : Nat)
    (hm : ∀ j, j < d → mcParticles.has_mothers (ancestor mcParticles start j) = true)
    (hend : mcParticles.has_mothers (ancestor mcParticles start d) = false) :
    ∀ i j, i < j → j ≤ d → ancestor mcParticles start i ≠ ancestor mcParticles start j := by
  intro i j hij hjd heq
  have h1 : ancestor mcParticles start ((d - j) + i) = ancestor mcParticles start ((d - j) + j) := by
    rw [ancestor_add, ancestor_add, heq]
  have h2 : (d - j) + j = d := by omega
  rw [h2] at h1
  have h3 := hm ((d - j) + i) (by omega)
  rw [h1, hend] at h3
  exact absurd h3 (by decide)

/-- With a well-founded first-mother relation, the chain from any particle ends at a
particle without mother. -/
theorem chain_ends (mcParticles : McParticles) (hwf : WellFounded (isMotherOf mcParticles))
    (start : Int) :
    ∃ d, (∀ j, j < d → mcParticles.has_mothers (ancestor mcParticles start j) = true) ∧
      mcParticles.has_mothers (ancestor mcParticles start d) = false := by
  induction start using hwf.induction with
  | _ i ih =>
    by_cases h : mcParticles.has_mothers i = true
    · obtain ⟨d, hd1, hd2⟩ := ih (mcParticles.mothers_first i) ⟨h, rfl⟩
      refine ⟨d + 1, ?_, by rw [← ancestor_shift]; exact hd2⟩
      intro j hj
      cases j with
      | zero => simpa [ancestor] using h
      | succ j => rw [← ancestor_shift]; exact hd1 j (by omega)
    · exact ⟨0, fun j hj => absurd hj (Nat.not_lt_zero j), by simpa [ancestor] using h⟩

/-- The loop stops at the first particle of the chain that fails its condition, which comes
no later than any particle that fails it. -/
theorem first_stop (mcParticles : McParticles) (start : Int) (d : Nat)
    (hstop : loopCond mcParticles (ancestor mcParticles start d) = false) :
    ∃ k, k ≤ d ∧
      (∀ j, j < k → loopCond mcParticles (ancestor mcParticles start j) = true) ∧
      loopCond mcParticles (ancestor mcParticles start k) = false := by
  have hex : ∃ k, loopCond mcParticles (ancestor mcParticles start k) = false := ⟨d, hstop⟩
  refine ⟨Nat.find hex, Nat.find_min' hex hstop, fun j hj => ?_, Nat.find_spec hex⟩
  have := Nat.find_min hex hj
  simpa using this

/-- With a well-founded first-mother relation, the traversal from any particle ends within
a number of runs that depends on the particle only. -/
theorem walk_ends (mcParticles : McParticles) (hwf : WellFounded (isMotherOf mcParticles))
    (start : Int) :
    ∃ k, ∀ fuel, k ≤ fuel →
      (walkLoop mcParticles fuel (walkStart mcParticles start)).isSome = true := by
  obtain ⟨d, _, hend⟩ := chain_ends mcParticles hwf start
  obtain ⟨k, _, hgo, hstop⟩ := first_stop mcParticles start d (by simp [loopCond, hend])
  refine ⟨k, fun fuel hfuel => ?_⟩
  rw [walkLoop_chain mcParticles k (walkStart mcParticles start) fuel rfl hgo hstop hfuel]
  rfl

/-- With a well-founded first-mother relation, one bound on the runs is enough for all the
tracks of an event. -/
theorem walks_end (mcParticles : McParticles) (hwf : WellFounded (isMotherOf mcParticles))
    (tracks : List FwdTrack) :
    ∃ N, ∀ fuel, N ≤ fuel → ∀ t ∈ tracks, (walkOf fuel mcParticles t).isSome = true := by
  induction tracks with
  | nil => exact ⟨0, fun _ _ t ht => absurd ht (List.not_mem_nil t)⟩
  | cons track rest ih =>
    obtain ⟨N, hN⟩ := ih
    obtain ⟨k, hk⟩ := walk_ends mcParticles hwf (mcParticles.mothers_first track.mcParticleId)
    refine ⟨max k N, fun fuel hfuel t ht => ?_⟩
    rcases List.mem_cons.mp ht with rfl | ht
    · exact hk fuel (le_trans (le_max_left k N) hfuel)
    · exact hN fuel (le_trans (le_max_right k N) hfuel) t ht

/-- A rank that decreases along first-mother links makes the relation well-founded. -/
theorem wellFounded_of_rank (mcParticles : McParticles) (rank : Int → Nat)
    (h : ∀ i, mcParticles.has_mothers i = true → rank (mcParticles.mothers_first i) < rank i) :
    WellFounded (isMotherOf mcParticles) := by
  apply Subrelation.wf _ (InvImage.wf rank Nat.lt_wfRel.wf)
  intro m i hmi
  obtain ⟨h1, h2⟩ := hmi
  subst h2
  exact h i h1

/-- Outside the stored rows, a stored table has no mother to show. -/
theorem ofRows_has_mothers_out (rows : List McParticleRow) (i : Int)
    (h : i < 0 ∨ (rows.length : Int) ≤ i) : (McParticles.ofRows rows).has_mothers i = false := by
  have hrow : rowAt rows i = McParticleRow.blank := by
    unfold rowAt
    rcases h with h | h
    · rw [if_pos h]
    · rw [if_neg (by omega)]
      exact List.getD_eq_default _ _ (by omega)
  simp [McParticles.ofRows, hrow, McParticleRow.blank]

/-- The first-mother relation of `tableViaLambdaB` is well-founded. -/
theorem tableViaLambdaB_wf : WellFounded (isMotherOf tableViaLambdaB) := by
  apply wellFounded_of_rank tableViaLambdaB (fun i => (4 - i).toNat)
  intro i hi
  have hcases : i = 0 ∨ i = 1 ∨ i = 2 ∨ i = 3 ∨ (i < 0 ∨ 4 ≤ i) := by omega
  rcases hcases with rfl | rfl | rfl | rfl | h
  · decide
  · decide
  · decide
  · exact absurd hi (by decide)
  · have hout := ofRows_has_mothers_out
      [muonRow 13 [1], rowOf 421 91 [2], rowOf 5122 91 [3], rowOf 5 23 []] i (by simpa using h)
    have hi1 : (McParticles.ofRows
      [muonRow 13 [1], rowOf 421 91 [2], rowOf 5122 91 [3], rowOf 5 23 []]).has_mothers i
        = true := hi
    rw [hout] at hi1
    cases hi1

/-- C16. Walk termination: on a table whose first-mother relation is well-founded, the
chain of first mothers from any start particle has some number `d` of proper ancestors,
the last one without mother, and no particle occurs twice on it; the traversal ends
after some `k <= d` runs of its body, neither fewer nor more, having moved over the
first `k` particles of that chain; and `process` completes on every dedup state and
every list of tracks, given a bound on the runs that is large enough. -/
theorem walk_terminates (mcParticles : McParticles)
    (hwf : WellFounded (isMotherOf mcParticles)) :
    (∀ start : Int, ∃ d k : Nat,
      (∀ j, j < d → mcParticles.has_mothers (ancestor mcParticles start j) = true) ∧
      mcParticles.has_mothers (ancestor mcParticles start d) = false ∧
      (∀ i j, i < j → j ≤ d → ancestor mcParticles start i ≠ ancestor mcParticles start j) ∧
      k ≤ d ∧
      (∀ fuel, fuel < k → walkLoop mcParticles fuel (walkStart mcParticles start) = none) ∧
      (∀ fuel, k ≤ fuel → walkLoop mcParticles fuel (walkStart mcParticles start) = some
        { mcPart := ancestor mcParticles start k
          prevMcPart := if k = 0 then start else ancestor mcParticles start (k - 1)
          mcPartPDG := abs32 (mcParticles.pdgCode (ancestor mcParticles start k))
          printed := chainCodes mcParticles start k }) ∧
      (chainCodes mcParticles start k).length = k) ∧
    ∀ (st : TaskState) (tracks : List FwdTrack),
      ∃ N, ∀ fuel, N ≤ fuel → (process fuel mcParticles st tracks).isSome = true := by
  refine ⟨fun start => ?_, fun st tracks => ?_⟩
  · obtain ⟨d, hm, hend⟩ := chain_ends mcParticles hwf start
    obtain ⟨k, hkd, hgo, hstop⟩ := first_stop mcParticles start d (by simp [loopCond, hend])
    refine ⟨d, k, hm, hend, chain_no_repeat mcParticles start d hm hend, hkd,
      fun fuel hfuel => walkLoop_short mcParticles k (walkStart mcParticles start) fuel hgo hfuel,
      fun fuel hfuel => ?_, chainCodes_length mcParticles start k⟩
    have h := walkLoop_chain mcParticles k (walkStart mcParticles start) fuel rfl hgo hstop hfuel
    simpa [walkStart] using h
  · obtain ⟨N, hN⟩ := walks_end mcParticles hwf tracks
    exact ⟨N, fun fuel hfuel =>
      process_isSome fuel mcParticles st tracks (fun t ht _ _ => hN fuel hfuel t ht)⟩

/-- C16 on `tableViaLambdaB`, whose first-mother relation is well-founded: from row 1 the
traversal runs its body twice, and `process` completes with that bound. -/
theorem walk_terminates_witness :
    WellFounded (isMotherOf tableViaLambdaB) ∧
    walkLoop tableViaLambdaB 1 (walkStart tableViaLambdaB 1) = none ∧
    walkLoop tableViaLambdaB 2 (walkStart tableViaLambdaB 1) = some ⟨3, 2, 5, [421, 5122]⟩ ∧
    (process 2 tableViaLambdaB TaskState.init
      [trackOf 0 (FloatVal.ofInt (-3)) (FloatVal.ofInt 2)]).isSome = true ∧
    ((∀ start : Int, ∃ d k : Nat,
      (∀ j, j < d → tableViaLambdaB.has_mothers (ancestor tableViaLambdaB start j) = true) ∧
      tableViaLambdaB.has_mothers (ancestor tableViaLambdaB start d) = false ∧
      (∀ i j, i < j → j ≤ d →
        ancestor tableViaLambdaB start i ≠ ancestor tableViaLambdaB start j) ∧
      k ≤ d ∧
      (∀ fuel, fuel < k → walkLoop tableViaLambdaB fuel (walkStart tableViaLambdaB start) = none) ∧
      (∀ fuel, k ≤ fuel → walkLoop tableViaLambdaB fuel (walkStart tableViaLambdaB start) = some
        { mcPart := ancestor tableViaLambdaB start k
          prevMcPart := if k = 0 then start else ancestor tableViaLambdaB start (k - 1)
          mcPartPDG := abs32 (tableViaLambdaB.pdgCode (ancestor tableViaLambdaB start k))
          printed := chainCodes tableViaLambdaB start k }) ∧
      (chainCodes tableViaLambdaB start k).length = k) ∧
    ∀ (st : TaskState) (tracks : List FwdTrack),
      ∃ N, ∀ fuel, N ≤ fuel → (process fuel tableViaLambdaB st tracks).isSome = true) :=
  ⟨tableViaLambdaB_wf, by decide, by decide, by decide,
    walk_terminates tableViaLambdaB tableViaLambdaB_wf⟩

theorem isPromptOf_self (x : Int) : isPromptOf x (abs32 x) = 1 := by
  unfold isPromptOf
  rw [if_neg (fun h => h rfl)]

/-- What the number of runs of the loop body says about the verdict, for one track whose
traversal ends. -/
theorem verdict_of_runs (fuel : Nat) (mcParticles : McParticles) (track : FwdTrack)
    (w : WalkState) (h : walkOf fuel mcParticles track = some w) :
    (w.printed.length ≤ 1 → (recordOf mcParticles track w).isPrompt = 1) ∧
    (loopCond mcParticles (mcParticles.mothers_first track.mcParticleId) = false ∨
      loopCond mcParticles
        (mcParticles.mothers_first (mcParticles.mothers_first track.mcParticleId)) = false →
      w.printed.length ≤ 1) ∧
    (1 < w.printed.length →
      loopCond mcParticles (mcParticles.mothers_first track.mcParticleId) = true ∧
      loopCond mcParticles
        (mcParticles.mothers_first (mcParticles.mothers_first track.mcParticleId)) = true) := by
  obtain ⟨k, _, hgo, _, hw⟩ := walkLoop_result mcParticles fuel _ w h
  have hlen : w.printed.length = k := by rw [hw]; exact chainCodes_length _ _ _
  have h0 : ancestor mcParticles (mcParticles.mothers_first track.mcParticleId) 0
      = mcParticles.mothers_first track.mcParticleId := rfl
  have h1 : ancestor mcParticles (mcParticles.mothers_first track.mcParticleId) 1
      = mcParticles.mothers_first (mcParticles.mothers_first track.mcParticleId) := rfl
  have hboth : 1 < k →
      loopCond mcParticles (mcParticles.mothers_first track.mcParticleId) = true ∧
      loopCond mcParticles
        (mcParticles.mothers_first (mcParticles.mothers_first track.mcParticleId)) = true := by
    intro hk
    exact ⟨h0 ▸ hgo 0 (by omega), h1 ▸ hgo 1 (by omega)⟩
  refine ⟨fun hle => ?_, fun hcond => ?_, fun hlt => hboth (hlen ▸ hlt)⟩
  · have hprev : w.prevMcPart = mcParticles.mothers_first track.mcParticleId := by
      rw [hw]
      by_cases hk : k = 0
      · simp [hk]
      · have hk1 : k = 1 := by omega
        simp [hk1, ancestor]
    simp only [recordOf, hprev]
    exact isPromptOf_self _
  · rw [hlen]
    by_contra hk
    obtain ⟨c1, c2⟩ := hboth (by omega)
    rcases hcond with hc | hc
    · rw [c1] at hc; cases hc
    · rw [c2] at hc; cases hc

/-- C17. Non-prompt needs two loop iterations: every line that `process` writes comes from
a track whose traversal ended, and if the loop body ran at most once for it, which is
the case as soon as the muon's mother, or the mother's first mother, has no mother or
fails the status test, the line carries `isPrompt = 1` whatever the codes are. A line
with `isPrompt = 0` only comes from a traversal in which both the mother and the
mother's first mother have a mother and pass the status test. -/
theorem nonprompt_needs_two_runs (fuel : Nat) (mcParticles : McParticles)
    (st st1 : TaskState) (tracks : List FwdTrack)
    (h : process fuel mcParticles st tracks = some st1) :
    ∃ emitted : List MuonRecord,
      st1.muonTracksOut = st.muonTracksOut ++ emitted ∧
      ∀ r ∈ emitted, ∃ t ∈ tracks, ∃ w,
        walkOf fuel mcParticles t = some w ∧ r = recordOf mcParticles t w ∧
        (w.printed.length ≤ 1 → r.isPrompt = 1) ∧
        ((mcParticles.has_mothers (mcParticles.mothers_first t.mcParticleId) = false ∨
            statusContinues mcParticles (mcParticles.mothers_first t.mcParticleId) = false) ∨
          (mcParticles.has_mothers
              (mcParticles.mothers_first (mcParticles.mothers_first t.mcParticleId)) = false ∨
            statusContinues mcParticles
              (mcParticles.mothers_first (mcParticles.mothers_first t.mcParticleId)) = false) →
          w.printed.length ≤ 1 ∧ r.isPrompt = 1) ∧
        (r.isPrompt = 0 →
          (mcParticles.has_mothers (mcParticles.mothers_first t.mcParticleId) = true ∧
            statusContinues mcParticles (mcParticles.mothers_first t.mcParticleId) = true) ∧
          (mcParticles.has_mothers
              (mcParticles.mothers_first (mcParticles.mothers_first t.mcParticleId)) = true ∧
            statusContinues mcParticles
              (mcParticles.mothers_first (mcParticles.mothers_first t.mcParticleId)) = true)) := by
  obtain ⟨_, _, _, f4, f5, _⟩ := process_effect fuel mcParticles tracks st st1 h
  refine ⟨_, f4, ?_⟩
  intro r hr
  obtain ⟨t, ht, hrt⟩ := List.mem_filterMap.mp hr
  obtain ⟨w, hw⟩ := Option.isSome_iff_exists.mp (f5 t ht)
  simp only [lineOf, hw, Option.map_some', Option.some.injEq] at hrt
  subst hrt
  obtain ⟨hmem, _, _⟩ := acceptedTracks_mem mcParticles tracks _ t ht
  obtain ⟨v1, v2, v3⟩ := verdict_of_runs fuel mcParticles t w hw
  have hsplit : ∀ i, loopCond mcParticles i = true ↔
      (mcParticles.has_mothers i = true ∧ statusContinues mcParticles i = true) := by
    intro i
    simp [loopCond]
  have hfalse : ∀ i, (mcParticles.has_mothers i = false ∨ statusContinues mcParticles i = false) →
      loopCond mcParticles i = false := by
    intro i hi
    rcases hi with hi | hi <;> simp [loopCond, hi]
  refine ⟨t, hmem, w, hw, rfl, v1, fun hcond => ?_, fun hzero => ?_⟩
  · have hle : w.printed.length ≤ 1 :=
      v2 (hcond.imp (hfalse _) (hfalse _))
    exact ⟨hle, v1 hle⟩
  · have hlt : 1 < w.printed.length := by
      by_contra hc
      have := v1 (by omega)
      rw [this] at hzero
      cases hzero
    obtain ⟨c1, c2⟩ := v3 hlt
    exact ⟨(hsplit _).mp c1, (hsplit _).mp c2⟩

/-- C17 on `tableViaB0`: the mother of the muon (a D+) passes the loop condition and its
first mother (a B0 of status 2) does not; the body runs once and the line carries
`isPrompt = 1`, although the B0 has another family code than the D+. -/
theorem nonprompt_needs_two_runs_witness :
    process 1 tableViaB0 TaskState.init [trackOf 0 (FloatVal.ofInt (-3)) (FloatVal.ofInt 2)]
      = some finalViaB0 ∧
    statusContinues tableViaB0 (tableViaB0.mothers_first (tableViaB0.mothers_first 0)) = false ∧
    finalViaB0.muonTracksOut.map MuonRecord.isPrompt = [1] ∧
    ∃ emitted : List MuonRecord,
      finalViaB0.muonTracksOut = TaskState.init.muonTracksOut ++ emitted ∧
      ∀ r ∈ emitted, ∃ t ∈ [trackOf 0 (FloatVal.ofInt (-3)) (FloatVal.ofInt 2)], ∃ w,
        walkOf 1 tableViaB0 t = some w ∧ r = recordOf tableViaB0 t w ∧
        (w.printed.length ≤ 1 → r.isPrompt = 1) ∧
        ((tableViaB0.has_mothers (tableViaB0.mothers_first t.mcParticleId) = false ∨
            statusContinues tableViaB0 (tableViaB0.mothers_first t.mcParticleId) = false) ∨
          (tableViaB0.has_mothers
              (tableViaB0.mothers_first (tableViaB0.mothers_first t.mcParticleId)) = false ∨
            statusContinues tableViaB0
              (tableViaB0.mothers_first (tableViaB0.mothers_first t.mcParticleId)) = false) →
          w.printed.length ≤ 1 ∧ r.isPrompt = 1) ∧
        (r.isPrompt = 0 →
          (tableViaB0.has_mothers (tableViaB0.mothers_first t.mcParticleId) = true ∧
            statusContinues tableViaB0 (tableViaB0.mothers_first t.mcParticleId) = true) ∧
          (tableViaB0.has_mothers
              (tableViaB0.mothers_first (tableViaB0.mothers_first t.mcParticleId)) = true ∧
            statusContinues tableViaB0
              (tableViaB0.mothers_first (tableViaB0.mothers_first t.mcParticleId)) = true)) :=
  ⟨by decide, by decide, by decide,
    nonprompt_needs_two_runs 1 tableViaB0 TaskState.init finalViaB0 _ (by decide)⟩

/-! ## Cyclic chains -/

/-- On a chain that comes back to an earlier particle, with the loop condition holding up
to there, the loop condition holds all along. -/
theorem loopCond_on_cycle (mcParticles : McParticles) (start : Int) (n p : Nat) (hp : 0 < p)
    (hcycle : ancestor mcParticles start (n + p) = ancestor mcParticles start n)
    (hgo : ∀ j, j < n + p → loopCond mcParticles (ancestor mcParticles start j) = true) :
    ∀ j, loopCond mcParticles (ancestor mcParticles start j) = true := by
  intro j
  induction j using Nat.strong_induction_on with
  | _ j ih =>
    by_cases hj : j < n + p
    · exact hgo j hj
    · have e1 : j = (j - (n + p)) + (n + p) := by omega
      have e2 : j - p = (j - (n + p)) + n := by omega
      have hback : ancestor mcParticles start j = ancestor mcParticles start (j - p) := by
        rw [e1, ancestor_add, hcycle, ← ancestor_add, ← e2, ← e1]
      rw [hback]
      exact ih (j - p) (by omega)

/-- A traversal over particles that all pass the loop condition ends for no bound. -/
theorem walkLoop_never_ends (mcParticles : McParticles) (start : Int)
    (hgo : ∀ j, loopCond mcParticles (ancestor mcParticles start j) = true) (fuel : Nat) :
    walkLoop mcParticles fuel (walkStart mcParticles start) = none :=
  walkLoop_short mcParticles (fuel + 1) (walkStart mcParticles start) fuel
    (fun j _ => hgo j) (Nat.lt_succ_self fuel)

/-- The first track of an event with a muon identity that is not selected yet reaches
line 73. -/
theorem acceptedTracks_of_first (mcParticles : McParticles) :
    ∀ (tracks : List FwdTrack) (S : List Int) (t : FwdTrack),
      muIDOf mcParticles t ∉ S →
      firstTrackOf mcParticles tracks (muIDOf mcParticles t) = some t →
      t ∈ acceptedTracks mcParticles S tracks := by
  intro tracks
  induction tracks with
  | nil => intro S t _ h; simp [firstTrackOf] at h
  | cons u rest ih =>
    intro S t hnew hfirst
    unfold firstTrackOf at hfirst
    rw [List.find?_cons] at hfirst
    by_cases hu : (isSpecMuon mcParticles u &&
        decide (muIDOf mcParticles u = muIDOf mcParticles t)) = true
    · rw [hu] at hfirst
      simp only [Option.some.injEq] at hfirst
      subst hfirst
      simp only [Bool.and_eq_true] at hu
      have hm : isTrueMuon mcParticles u = true := by
        rw [isTrueMuon_eq_isSpecMuon]; exact hu.1
      rw [acceptedTracks_cons_pos mcParticles _ u rest ⟨hm, hnew⟩]
      exact List.mem_cons_self _ _
    · have hu1 : (isSpecMuon mcParticles u &&
          decide (muIDOf mcParticles u = muIDOf mcParticles t)) = false := by
        simpa using hu
      rw [hu1] at hfirst
      have hfirst1 : firstTrackOf mcParticles rest (muIDOf mcParticles t) = some t := hfirst
      by_cases hacc : isTrueMuon mcParticles u = true ∧ muIDOf mcParticles u ∉ S
      · rw [acceptedTracks_cons_pos mcParticles _ u rest hacc]
        apply List.mem_cons_of_mem
        apply ih _ t _ hfirst1
        have hs : isSpecMuon mcParticles u = true := by
          rw [← isTrueMuon_eq_isSpecMuon]; exact hacc.1
        rw [hs] at hu1
        have hne : muIDOf mcParticles u ≠ muIDOf mcParticles t := by simpa using hu1
        intro hin
        rcases List.mem_append.mp hin with h1 | h1
        · exact hnew h1
        · exact hne (List.mem_singleton.mp h1).symm
      · rw [acceptedTracks_cons_neg mcParticles _ u rest hacc]
        exact ih S t hnew hfirst1

/-- When the traversal of a track that reaches line 73 does not end, `process` does not
complete. -/
theorem process_none_of_walk_none (fuel : Nat) (mcParticles : McParticles) (st : TaskState)
    (tracks : List FwdTrack) (t : FwdTrack)
    (hacc : t ∈ acceptedTracks mcParticles st.selectedTracksID tracks)
    (hwalk : walkOf fuel mcParticles t = none) :
    process fuel mcParticles st tracks = none := by
  cases h : process fuel mcParticles st tracks with
  | none => rfl
  | some st1 =>
    obtain ⟨_, _, _, _, f5, _⟩ := process_effect fuel mcParticles tracks st st1 h
    have := f5 t hacc
    rw [hwalk] at this
    cases this

/-- On a cyclic chain `process` never completes: general form. -/
theorem process_on_cycle (mcParticles : McParticles) (st : TaskState) (tracks : List FwdTrack)
    (t : FwdTrack) (n p : Nat)
    (hfirst : firstTrackOf mcParticles tracks (muIDOf mcParticles t) = some t)
    (hnew : muIDOf mcParticles t ∉ st.selectedTracksID)
    (hp : 0 < p)
    (hcycle : ancestor mcParticles (mcParticles.mothers_first t.mcParticleId) (n + p) =
      ancestor mcParticles (mcParticles.mothers_first t.mcParticleId) n)
    (hgo : ∀ j, j < n + p →
      loopCond mcParticles (ancestor mcParticles (mcParticles.mothers_first t.mcParticleId) j)
        = true) (fuel : Nat) :
    walkOf fuel mcParticles t = none ∧ process fuel mcParticles st tracks = none := by
  have hwalk : walkOf fuel mcParticles t = none :=
    walkLoop_never_ends mcParticles _ (loopCond_on_cycle mcParticles _ n p hp hcycle hgo) fuel
  exact ⟨hwalk, process_none_of_walk_none fuel mcParticles st tracks t
    (acceptedTracks_of_first mcParticles tracks _ t hnew hfirst) hwalk⟩

/-- C15, refuted on `tableCycle` and `tracksCycle`: the first track is labelled with a muon
that is not selected yet and whose chain runs row 1 -> row 2 -> row 1, both rows having
a mother and passing the status test. Whatever the bound on the runs of the loop body,
`process` does not complete, so that the second track, which alone gives a line, is
never reached. -/
theorem cyclic_chain_counterexample :
    tableCycle.mothers_first 0 = 1 ∧ tableCycle.mothers_first 1 = 2 ∧
    tableCycle.mothers_first 2 = 1 ∧
    loopCond tableCycle 1 = true ∧ loopCond tableCycle 2 = true ∧
    isSpecMuon tableCycle (trackOf 0 (FloatVal.ofInt (-3)) (FloatVal.ofInt 2)) = true ∧
    (process 0 tableCycle TaskState.init
      [trackOf 3 (FloatVal.ofInt (-3)) (FloatVal.ofInt 4)]).map
        (fun s => s.muonTracksOut.map MuonRecord.ID) = some [3] ∧
    ∀ fuel, process fuel tableCycle TaskState.init tracksCycle = none :=
  ⟨by decide, by decide, by decide, by decide, by decide, by decide, by decide,
    fun fuel => (process_on_cycle tableCycle TaskState.init tracksCycle
      (trackOf 0 (FloatVal.ofInt (-3)) (FloatVal.ofInt 2)) 0 2 (by decide) (by decide)
      (by decide) (by decide) (by decide) fuel).2⟩

/-- C15, amended. `process` has no detection of cycles. When a track is the first of the
event with its muon identity, that identity is not selected yet, and the chain from the
muon's first mother comes back to a particle it has visited (after `n` links, with
period `p`) with every particle up to there having a mother and passing the status
test, the traversal of that track ends for no bound on the runs of the loop body, and so
`process` completes for none: no state, hence no line for that track or a later one, is
returned. -/
theorem cyclic_chain_never_ends (mcParticles : McParticles) (st : TaskState)
    (tracks : List FwdTrack) (t : FwdTrack) (n p : Nat)
    (hfirst : firstTrackOf mcParticles tracks (muIDOf mcParticles t) = some t)
    (hnew : muIDOf mcParticles t ∉ st.selectedTracksID)
    (hp : 0 < p)
    (hcycle : ancestor mcParticles (mcParticles.mothers_first t.mcParticleId) (n + p) =
      ancestor mcParticles (mcParticles.mothers_first t.mcParticleId) n)
    (hgo : ∀ j, j < n + p →
      mcParticles.has_mothers
          (ancestor mcParticles (mcParticles.mothers_first t.mcParticleId) j) = true ∧
        statusContinues mcParticles
          (ancestor mcParticles (mcParticles.mothers_first t.mcParticleId) j) = true) :
    ∀ fuel, walkOf fuel mcParticles t = none ∧ process fuel mcParticles st tracks = none := by
  intro fuel
  exact process_on_cycle mcParticles st tracks t n p hfirst hnew hp hcycle
    (fun j hj => by simp [loopCond, (hgo j hj).1, (hgo j hj).2]) fuel

/-- C15, amended, on `tableCycle` and `tracksCycle` (the cycle is entered at once, `n = 0`,
and has period `p = 2`): no completion with a bound of a thousand runs, nor with any
other. -/
theorem cyclic_chain_never_ends_witness :
    firstTrackOf tableCycle tracksCycle
        (muIDOf tableCycle (trackOf 0 (FloatVal.ofInt (-3)) (FloatVal.ofInt 2)))
      = some (trackOf 0 (FloatVal.ofInt (-3)) (FloatVal.ofInt 2)) ∧
    muIDOf tableCycle (trackOf 0 (FloatVal.ofInt (-3)) (FloatVal.ofInt 2))
      ∉ TaskState.init.selectedTracksID ∧
    0 < 2 ∧
    ancestor tableCycle
        (tableCycle.mothers_first (trackOf 0 (FloatVal.ofInt (-3)) (FloatVal.ofInt 2)).mcParticleId)
        (0 + 2) =
      ancestor tableCycle
        (tableCycle.mothers_first (trackOf 0 (FloatVal.ofInt (-3)) (FloatVal.ofInt 2)).mcParticleId)
        0 ∧
    (∀ j, j < 0 + 2 →
      tableCycle.has_mothers (ancestor tableCycle (tableCycle.mothers_first
          (trackOf 0 (FloatVal.ofInt (-3)) (FloatVal.ofInt 2)).mcParticleId) j) = true ∧
        statusContinues tableCycle (ancestor tableCycle (tableCycle.mothers_first
          (trackOf 0 (FloatVal.ofInt (-3)) (FloatVal.ofInt 2)).mcParticleId) j) = true) ∧
    (walkOf 1000 tableCycle (trackOf 0 (FloatVal.ofInt (-3)) (FloatVal.ofInt 2)) = none ∧
      process 1000 tableCycle TaskState.init tracksCycle = none) :=
  ⟨by decide, by decide, by decide, by decide, by decide,
    cyclic_chain_never_ends tableCycle TaskState.init tracksCycle
      (trackOf 0 (FloatVal.ofInt (-3)) (FloatVal.ofInt 2)) 0 2 (by decide) (by decide)
      (by decide) (by decide) (by decide) 1000⟩

end HFMuonFwdTracks
